import Mathlib

/-!
Verification of the in-place line-rewriting utility (`rewriteFiles.js`).

The development shallowly embeds the source program:

* `processLine` (quote-reversal transform on one line of text),
* the `ReadFileAsync` buffered line reader (`_find_eol`, `_emit_line`,
  `_refill`, `next`, `close`) — once as a synchronous driver-protocol model
  (`nextSync` / `emitAllF`, the canonical "call `next` again after each
  delivery, every disk read succeeds" execution), and once as a labelled
  transition system (`stepEv` / `Reachable`) in which the environment may
  close the reader, violate the call protocol, or resolve an outstanding
  disk read with an error,
* the `rewriteFiles` driver's write-completion behaviour (`driveWritesF`).

Bytes are modelled as natural numbers, the fixed byte buffer as a
`List Nat` of length `BUF_SIZE`, and JavaScript strings as `List Char`.
Loops whose termination depends on data (the quote-scanning loop of
`processLine`, the refill loop inside `next`, the driver loop) are embedded
with an explicit fuel parameter; the correctness lemmas are proved for
every sufficiently large fuel, which shows the result is independent of the
fuel choice and that the source loops terminate.
-/

/-- `BUF_SIZE` from the source: capacity of the reader's byte buffer. -/
def BUF_SIZE : Nat := 8092

/-! ## The `processLine` transform -/

/-- Index of the first occurrence of `c` in a list (`none` if absent);
helper for JavaScript's `String.prototype.indexOf`. -/
def idxOfAux (c : Char) : List Char → Option Nat
  | [] => none
  | a :: r => if a = c then some 0 else (idxOfAux c r).map (· + 1)

/-- JavaScript `line.indexOf(c, p)`: first index `≥ p` holding `c`, or `-1`. -/
def jsIndexOf (line : List Char) (c : Char) (p : Nat) : Int :=
  match idxOfAux c (line.drop p) with
  | some k => ((p + k : Nat) : Int)
  | none => -1

/-- The `while` loop of `processLine`, resuming the quote search at
position `p` of the current line.  One fuel unit is spent per iteration;
`processLine` supplies fuel `line.length + 1`, which is proved sufficient
(`codeLoopF_spec` holds for every fuel `≥ line.length + 1 - p`).

Mirrors the source: `start` is the next `"` at or after `p`; `end` is the
following `"` (computed only when `start > -1 && start < line.length - 1`);
when both exist the characters strictly between them are reversed in place
and the search resumes after `end`. -/
def codeLoopF (fuel : Nat) (line : List Char) (p : Nat) : List Char :=
  match fuel with
  | 0 => line
  | fuel + 1 =>
    let start : Int := jsIndexOf line '"' p
    let e : Int :=
      if -1 < start ∧ start < (line.length : Int) - 1 then
        jsIndexOf line '"' (start.toNat + 1)
      else -1
    if -1 < start ∧ start < e then
      let s := start.toNat
      let en := e.toNat
      let str := ((line.take en).drop (s + 1)).reverse
      let line2 := line.take (s + 1) ++ (str ++ line.drop en)
      codeLoopF fuel line2 (en + 1)
    else line

/-- The pure transform part of `processLine`: the quote-reversal loop run
from the start of the line (the spec's external `transform` collaborator). -/
def transform (line : List Char) : List Char :=
  codeLoopF (line.length + 1) line 0

/-- `ReadFileAsync.processLine`: reverse every quoted substring, then append
the LF terminator (`return line + '\n'`). -/
def processLine (line : List Char) : List Char :=
  transform line ++ ['\n']

/-! ## Spec-side transform

`specTransform` renders the spec's words: split the line at double quotes,
reverse the character runs that lie between successive pairs of quotes,
leave unquoted runs and the quotes themselves untouched, and leave an
unterminated trailing quoted run unmodified. -/

/-- Split a line at `"` characters; the result is the list of maximal
quote-free runs (always nonempty: `n` quotes give `n + 1` runs). -/
def splitQuote : List Char → List (List Char)
  | [] => [[]]
  | c :: r =>
    if c = '"' then [] :: splitQuote r
    else
      match splitQuote r with
      | [] => [[c]]
      | h :: t => (c :: h) :: t

/-- Reverse every run lying inside a completed pair of quotes: runs
alternate outside/inside, and a final run still inside an open quote is
left unmodified. -/
def revInside : List (List Char) → Bool → List (List Char)
  | [], _ => []
  | [l], true => [l]
  | l :: rest, inside => (if inside then l.reverse else l) :: revInside rest (!inside)

/-- Re-join quote-separated runs, reinserting one `"` between runs. -/
def joinQuote : List (List Char) → List Char
  | [] => []
  | [l] => l
  | l :: rest => l ++ '"' :: joinQuote rest

/-- The transform as the spec words it. -/
def specTransform (line : List Char) : List Char :=
  joinQuote (revInside (splitQuote line) false)

/-! ## List toolkit -/

theorem take_of_eq_append {α : Type} {l xs ys : List α} {n : Nat}
    (h : l = xs ++ ys) (hn : n = xs.length) : l.take n = xs := by
  subst h; subst hn
  rw [List.take_append_of_le_length (Nat.le_refl _), List.take_length]

theorem drop_of_eq_append {α : Type} {l xs ys : List α} {n : Nat}
    (h : l = xs ++ ys) (hn : n = xs.length) : l.drop n = ys := by
  subst h; subst hn
  rw [List.drop_append_of_le_length (Nat.le_refl _), List.drop_length, List.nil_append]

theorem take_of_eq_append_add {α : Type} {l xs ys : List α} {n m : Nat}
    (h : l = xs ++ ys) (hn : n = xs.length + m) : l.take n = xs ++ ys.take m := by
  subst h; subst hn; exact List.take_append m

theorem drop_of_eq_append_add {α : Type} {l xs ys : List α} {n m : Nat}
    (h : l = xs ++ ys) (hn : n = xs.length + m) : l.drop n = ys.drop m := by
  subst h; subst hn; exact List.drop_append m

/-! ## `idxOfAux` / `jsIndexOf` characterization -/

theorem idxOfAux_none {c : Char} {l : List Char} (h : idxOfAux c l = none) : c ∉ l := by
  induction l with
  | nil => simp
  | cons a r ih =>
    by_cases hac : a = c
    · simp [idxOfAux, hac] at h
    · cases hr : idxOfAux c r with
      | none =>
        intro hm
        rcases List.mem_cons.mp hm with h1 | h2
        · exact hac h1.symm
        · exact ih hr h2
      | some k => simp [idxOfAux, hac, hr] at h

theorem idxOfAux_some {c : Char} {l : List Char} {k : Nat} (h : idxOfAux c l = some k) :
    ∃ a b, l = a ++ c :: b ∧ a.length = k ∧ c ∉ a := by
  induction l generalizing k with
  | nil => simp [idxOfAux] at h
  | cons x r ih =>
    by_cases hxc : x = c
    · refine ⟨[], r, by simp [hxc], ?_, by simp⟩
      simp [idxOfAux, hxc] at h
      simp [← h]
    · cases hr : idxOfAux c r with
      | none => simp [idxOfAux, hxc, hr] at h
      | some k2 =>
        simp [idxOfAux, hxc, hr] at h
        obtain ⟨a, b, hab, hlen, hnq⟩ := ih hr
        refine ⟨x :: a, b, by simp [hab], by simp [hlen]; omega, ?_⟩
        intro hm
        rcases List.mem_cons.mp hm with h1 | h2
        · exact hxc h1.symm
        · exact hnq h2

/-! ## `splitQuote` / `revInside` / `joinQuote` lemmas -/

theorem splitQuote_ne_nil (l : List Char) : splitQuote l ≠ [] := by
  cases l with
  | nil => simp [splitQuote]
  | cons c r =>
    by_cases hc : c = '"'
    · simp [splitQuote, hc]
    · cases hr : splitQuote r <;> simp [splitQuote, hc, hr]

theorem splitQuote_no_quote {l : List Char} (h : '"' ∉ l) : splitQuote l = [l] := by
  induction l with
  | nil => rfl
  | cons c r ih =>
    have hc : ¬c = '"' := fun hc => h (by simp [hc])
    have hr : splitQuote r = [r] := ih (fun hm => h (List.mem_cons_of_mem _ hm))
    simp [splitQuote, hc, hr]

theorem splitQuote_append {a : List Char} (b : List Char) (h : '"' ∉ a) :
    splitQuote (a ++ '"' :: b) = a :: splitQuote b := by
  induction a with
  | nil => simp [splitQuote]
  | cons c r ih =>
    have hc : ¬c = '"' := fun hc => h (by simp [hc])
    have hr := ih (fun hm => h (List.mem_cons_of_mem _ hm))
    simp only [List.cons_append, splitQuote, hc, if_false, List.append_eq, hr]

theorem revInside_nil (b : Bool) : revInside [] b = [] := rfl

theorem revInside_one_true (l : List Char) : revInside [l] true = [l] := rfl

theorem revInside_one_false (l : List Char) : revInside [l] false = [l] := rfl

theorem revInside_cons_cons_false (l x : List Char) (rest : List (List Char)) :
    revInside (l :: x :: rest) false = l :: revInside (x :: rest) true := rfl

theorem revInside_cons_cons_true (l x : List Char) (rest : List (List Char)) :
    revInside (l :: x :: rest) true = l.reverse :: revInside (x :: rest) false := rfl

theorem revInside_ne_nil {S : List (List Char)} (h : S ≠ []) (b : Bool) :
    revInside S b ≠ [] := by
  cases S with
  | nil => exact absurd rfl h
  | cons l rest =>
    cases rest with
    | nil => cases b <;> simp [revInside_one_true, revInside_one_false]
    | cons x t =>
      cases b <;>
        simp [revInside_cons_cons_false, revInside_cons_cons_true]

theorem joinQuote_cons (l : List Char) {rest : List (List Char)} (h : rest ≠ []) :
    joinQuote (l :: rest) = l ++ '"' :: joinQuote rest := by
  cases rest with
  | nil => exact absurd rfl h
  | cons x t => rfl

/-! ## `specTransform` unfolding lemmas -/

theorem specTransform_no_quote {l : List Char} (h : '"' ∉ l) : specTransform l = l := by
  unfold specTransform
  rw [splitQuote_no_quote h, revInside_one_false]
  rfl

theorem specTransform_open {a b : List Char} (ha : '"' ∉ a) (hb : '"' ∉ b) :
    specTransform (a ++ '"' :: b) = a ++ '"' :: b := by
  unfold specTransform
  rw [splitQuote_append b ha, splitQuote_no_quote hb]
  rfl

theorem specTransform_pair {a a2 : List Char} (b2 : List Char)
    (ha : '"' ∉ a) (ha2 : '"' ∉ a2) :
    specTransform (a ++ '"' :: (a2 ++ '"' :: b2)) =
      a ++ '"' :: (a2.reverse ++ '"' :: specTransform b2) := by
  unfold specTransform
  rw [splitQuote_append _ ha, splitQuote_append b2 ha2]
  obtain ⟨x, S, hxS⟩ : ∃ x S, splitQuote b2 = x :: S := by
    cases h : splitQuote b2 with
    | nil => exact absurd h (splitQuote_ne_nil b2)
    | cons x S => exact ⟨x, S, rfl⟩
  rw [hxS, revInside_cons_cons_false, revInside_cons_cons_true]
  rw [joinQuote_cons a (by simp), joinQuote_cons a2.reverse
    (revInside_ne_nil (by simp) false)]

/-! ## The refinement: `codeLoopF` implements `specTransform` -/

theorem codeLoopF_spec : ∀ (fuel : Nat) (line : List Char) (p : Nat),
    line.length + 1 ≤ fuel + p →
    codeLoopF fuel line p = line.take p ++ specTransform (line.drop p) := by
  intro fuel
  induction fuel with
  | zero =>
    intro line p hp
    have hdrop : line.drop p = [] := List.drop_eq_nil_of_le (by omega)
    have htake : line.take p = line := List.take_of_length_le (by omega)
    rw [hdrop, htake, specTransform_no_quote (by simp)]
    simp [codeLoopF]
  | succ fuel ih =>
    intro line p hp
    cases hA : idxOfAux '"' (line.drop p) with
    | none =>
      have hnq : '"' ∉ line.drop p := idxOfAux_none hA
      have hstart : jsIndexOf line '"' p = -1 := by simp [jsIndexOf, hA]
      rw [specTransform_no_quote hnq, List.take_append_drop]
      simp [codeLoopF, hstart]
    | some k1 =>
      obtain ⟨a, b, hab, hka, hnqa⟩ := idxOfAux_some hA
      have hstart : jsIndexOf line '"' p = ((p + k1 : Nat) : Int) := by
        simp [jsIndexOf, hA]
      have hlenline : line.length = p + k1 + 1 + b.length := by
        have h1 : (line.drop p).length = line.length - p := List.length_drop _ _
        rw [hab] at h1
        simp only [List.length_append, List.length_cons] at h1
        omega
      have hline : line = line.take p ++ (a ++ '"' :: b) := by
        conv_lhs => rw [← List.take_append_drop p line]
        rw [hab]
      have hPlen : (line.take p).length = p := by
        rw [List.length_take]; omega
      by_cases hb : b = []
      · subst hb
        have hcond : ¬((-1 : Int) < ((p + k1 : Nat) : Int) ∧
            ((p + k1 : Nat) : Int) < (line.length : Int) - 1) := by
          simp only [List.length_nil] at hlenline
          omega
        have hrw : codeLoopF (fuel + 1) line p = line := by
          simp only [codeLoopF, hstart]
          rw [if_neg hcond, if_neg (by omega)]
        rw [hrw, hab, specTransform_open hnqa (by simp), ← hline]
      · have hblen : 1 ≤ b.length := List.length_pos.mpr hb
        have hcond1 : ((-1 : Int) < ((p + k1 : Nat) : Int) ∧
            ((p + k1 : Nat) : Int) < (line.length : Int) - 1) := by
          omega
        have hline2 : line = (line.take p ++ a ++ ['"']) ++ b := by
          conv_lhs => rw [hline]
          simp
        have hdropq1 : line.drop (p + k1 + 1) = b :=
          drop_of_eq_append hline2 (by
            simp only [List.length_append, List.length_cons, List.length_nil, hPlen, hka] <;> omega)
        cases hB : idxOfAux '"' b with
        | none =>
          have he : jsIndexOf line '"' (p + k1 + 1) = -1 := by
            simp [jsIndexOf, hdropq1, hB]
          have hrw : codeLoopF (fuel + 1) line p = line := by
            simp only [codeLoopF, hstart]
            rw [if_pos hcond1]
            simp only [Int.toNat_natCast]
            rw [he, if_neg (by omega)]
          rw [hrw, hab, specTransform_open hnqa (idxOfAux_none hB), ← hline]
        | some k2 =>
          obtain ⟨a2, b2, hab2, hka2, hnqa2⟩ := idxOfAux_some hB
          have hblen2 : b.length = k2 + 1 + b2.length := by
            rw [hab2]
            simp only [List.length_append, List.length_cons] <;> omega
          have he : jsIndexOf line '"' (p + k1 + 1) = ((p + k1 + 1 + k2 : Nat) : Int) := by
            simp only [jsIndexOf, hdropq1, hB]
          have hline3 : line = ((line.take p ++ a ++ ['"']) ++ a2) ++ '"' :: b2 := by
            conv_lhs => rw [hline]
            rw [hab2]
            simp
          have htake1 : line.take (p + k1 + 1) = line.take p ++ a ++ ['"'] :=
            take_of_eq_append hline2 (by
              simp only [List.length_append, List.length_cons, List.length_nil, hPlen, hka] <;> omega)
          have htake2 : line.take (p + k1 + 1 + k2) = (line.take p ++ a ++ ['"']) ++ a2 :=
            take_of_eq_append hline3 (by
              simp only [List.length_append, List.length_cons, List.length_nil, hPlen, hka, hka2] <;> omega)
          have hstr : (line.take (p + k1 + 1 + k2)).drop (p + k1 + 1) = a2 := by
            rw [htake2]
            exact drop_of_eq_append rfl (by
              simp only [List.length_append, List.length_cons, List.length_nil, hPlen, hka] <;> omega)
          have hdropr : line.drop (p + k1 + 1 + k2) = '"' :: b2 :=
            drop_of_eq_append hline3 (by
              simp only [List.length_append, List.length_cons, List.length_nil, hPlen, hka, hka2] <;> omega)
          have hrw : codeLoopF (fuel + 1) line p =
              codeLoopF fuel
                (line.take (p + k1 + 1) ++
                  (((line.take (p + k1 + 1 + k2)).drop (p + k1 + 1)).reverse ++
                    line.drop (p + k1 + 1 + k2)))
                (p + k1 + 1 + k2 + 1) := by
            simp only [codeLoopF, hstart]
            rw [if_pos hcond1]
            simp only [Int.toNat_natCast]
            rw [he]
            rw [if_pos (by constructor <;> omega)]
            simp only [Int.toNat_natCast]
          rw [hrw, htake1, hstr, hdropr]
          have hih := ih (line.take p ++ a ++ ['"'] ++ (a2.reverse ++ '"' :: b2))
            (p + k1 + 1 + k2 + 1) (by
              simp only [List.length_append, List.length_cons, List.length_nil,
                List.length_reverse, hPlen, hka, hka2] <;> omega)
          rw [hih]
          have hline2alt : line.take p ++ a ++ ['"'] ++ (a2.reverse ++ '"' :: b2) =
              ((line.take p ++ a ++ ['"']) ++ a2.reverse ++ ['"']) ++ b2 := by
            simp
          have htake3 : (line.take p ++ a ++ ['"'] ++ (a2.reverse ++ '"' :: b2)).take
              (p + k1 + 1 + k2 + 1) =
              (line.take p ++ a ++ ['"']) ++ a2.reverse ++ ['"'] :=
            take_of_eq_append hline2alt (by
              simp only [List.length_append, List.length_cons, List.length_nil,
                List.length_reverse, hPlen, hka, hka2] <;> omega)
          have hdrop3 : (line.take p ++ a ++ ['"'] ++ (a2.reverse ++ '"' :: b2)).drop
              (p + k1 + 1 + k2 + 1) = b2 :=
            drop_of_eq_append hline2alt (by
              simp only [List.length_append, List.length_cons, List.length_nil,
                List.length_reverse, hPlen, hka, hka2] <;> omega)
          rw [htake3, hdrop3]
          have hrhs : line.drop p = a ++ '"' :: (a2 ++ '"' :: b2) := by
            rw [hab, hab2]
          rw [hrhs, specTransform_pair b2 hnqa hnqa2]
          simp

theorem transform_eq_specTransform (line : List Char) :
    transform line = specTransform line := by
  have h := codeLoopF_spec (line.length + 1) line 0 (by omega)
  simpa [transform] using h

/-! ## Length preservation of the transform -/

theorem joinQuote_splitQuote (l : List Char) : joinQuote (splitQuote l) = l := by
  induction l with
  | nil => rfl
  | cons c r ih =>
    by_cases hc : c = '"'
    · rw [hc]
      show joinQuote (splitQuote ('"' :: r)) = '"' :: r
      have : splitQuote ('"' :: r) = [] :: splitQuote r := by simp [splitQuote]
      rw [this, joinQuote_cons [] (splitQuote_ne_nil r), ih]
      rfl
    · obtain ⟨h0, t, ht⟩ : ∃ h0 t, splitQuote r = h0 :: t := by
        cases hsp : splitQuote r with
        | nil => exact absurd hsp (splitQuote_ne_nil r)
        | cons h0 t => exact ⟨h0, t, rfl⟩
      have hsp : splitQuote (c :: r) = (c :: h0) :: t := by
        simp [splitQuote, hc, ht]
      rw [hsp]
      cases t with
      | nil =>
        have : joinQuote [c :: h0] = c :: h0 := rfl
        rw [this]
        have hr : h0 = r := by
          have := ih
          rw [ht] at this
          exact this
        rw [hr]
      | cons u v =>
        rw [joinQuote_cons (c :: h0) (by simp)]
        have hr : h0 ++ '"' :: joinQuote (u :: v) = r := by
          have := ih
          rw [ht, joinQuote_cons h0 (by simp)] at this
          exact this
        simp [hr]

theorem revInside_length_map (S : List (List Char)) :
    ∀ b : Bool, (revInside S b).map List.length = S.map List.length := by
  induction S with
  | nil => intro b; rfl
  | cons x rest ih =>
    intro b
    cases rest with
    | nil => cases b <;> rfl
    | cons y t =>
      cases b
      · rw [revInside_cons_cons_false]
        simp [ih true]
      · rw [revInside_cons_cons_true]
        simp [ih false]

theorem joinQuote_length_congr (S : List (List Char)) :
    ∀ T : List (List Char), S.map List.length = T.map List.length →
      (joinQuote S).length = (joinQuote T).length := by
  induction S with
  | nil =>
    intro T h
    cases T with
    | nil => rfl
    | cons y t => simp at h
  | cons x rest ih =>
    intro T h
    cases T with
    | nil => simp at h
    | cons y t =>
      simp only [List.map_cons, List.cons.injEq] at h
      obtain ⟨hxy, hrt⟩ := h
      cases rest with
      | nil =>
        cases t with
        | nil => simpa [joinQuote] using hxy
        | cons u v => simp at hrt
      | cons r1 r2 =>
        cases t with
        | nil => simp at hrt
        | cons u v =>
          rw [joinQuote_cons x (by simp), joinQuote_cons y (by simp)]
          simp only [List.length_append, List.length_cons]
          rw [hxy, ih (u :: v) hrt]

theorem specTransform_length (l : List Char) : (specTransform l).length = l.length := by
  unfold specTransform
  have h1 := joinQuote_length_congr (revInside (splitQuote l) false) (splitQuote l)
    (revInside_length_map (splitQuote l) false)
  rw [h1, joinQuote_splitQuote]

/-- **C2**: the transform reverses the character sequence between each
successive pair of double quotes, leaves unquoted text and the quote
characters unchanged, and leaves an unterminated trailing quoted segment
unmodified (formalized as `transform = specTransform`, where `specTransform`
renders exactly these words); in particular
`transform "say \"abc\" and \"xy\"" = "say \"cba\" and \"yx\""` and
`transform "say \"abc" = "say \"abc"`. -/
theorem transform_spec_and_examples :
    (∀ line : List Char, transform line = specTransform line) ∧
    transform ("say \"abc\" and \"xy\"".toList) = ("say \"cba\" and \"yx\"".toList) ∧
    transform ("say \"abc".toList) = ("say \"abc".toList) := by
  refine ⟨transform_eq_specTransform, ?_, ?_⟩ <;> decide

/-- **C10**: for every input line, `processLine` returns a string of length
exactly the input's length plus one (the appended LF): the quoted-substring
reversal never changes the line's length. -/
theorem processLine_length_preserving (line : List Char) :
    (processLine line).length = line.length + 1 := by
  simp [processLine, transform_eq_specTransform, specTransform_length]

/-! ## The buffered line reader: state and primitive operations -/

/-- Error kinds carried by the `"line"` event (first argument of `emit`):
the protocol-violation error ("read operation already in course"), the
closed-reader error ("file is closed"), the capacity error ("line larger
than the buffer"), and a disk I/O error passed through from `fs.read`. -/
inductive ErrKind where
  | inProgress
  | closed
  | capacity
  | ioErr
deriving DecidableEq

/-- One delivery of the `"line"` event: a stripped text line (payload in
bytes), the end-of-file signal, or an error.  `stuck` is the fuel-exhaustion
marker of the fuel-based execution functions; the correctness lemmas show it
never arises for sufficient fuel. -/
inductive Output where
  | line (payload : List Nat)
  | eofSig
  | error (kind : ErrKind)
  | stuck
deriving DecidableEq

/-- `ReadFileAsync` state.  `_buffer = none` models `this._buffer = null`
(the closed reader); an open buffer is a byte list of length `BUF_SIZE`. -/
structure RState where
  _buffer : Option (List Nat)
  _end : Nat
  _pos : Nat
  _eof : Bool
  _reading : Bool
  _readPointer : Nat
deriving DecidableEq

/-- The constructor state: fresh zeroed buffer, all cursors at zero. -/
def initReader : RState :=
  ⟨some (List.replicate BUF_SIZE 0), 0, 0, false, false, 0⟩

/-- Buffer contents (`[]` when closed; only ever read while open). -/
def bufOf (s : RState) : List Nat := s._buffer.getD []

/-- The unprocessed window `buffer[_pos .. _end)`. -/
def window (s : RState) : List Nat := ((bufOf s).take s._end).drop s._pos

/-- Bytes scanned before the first LF (list length when LF is absent);
the scanning loop of `_find_eol`. -/
def firstNL : List Nat → Nat
  | [] => 0
  | b :: r => if b = 10 then 0 else firstNL r + 1

/-- `ReadFileAsync._find_eol`: index of the first `0x0A` in
`buffer[_pos .. _end)`, or `_end` when absent. -/
def find_eol (s : RState) : Nat := s._pos + firstNL (window s)

/-- `ReadFileAsync.close()`: when not already closed, release the file
handle, null the buffer and clear `_reading`.  The Bool records whether the
handle was released by this call. -/
def closeFn (s : RState) : RState × Bool :=
  if s._buffer = none then (s, false)
  else ({ s with _buffer := none, _reading := false }, true)

/-- `ReadFileAsync._emit_line(eol)`: clear `_reading`; if at end of file
with an empty range emit the end-of-file signal and close (no phantom empty
final line); otherwise advance `_pos` past the terminator, additionally
strip a CR immediately preceding `eol`, and emit the text
`buffer[begin .. eol)`. -/
def emit_line (s : RState) (eol : Nat) : RState × Output :=
  let begin := s._pos
  let s1 : RState := { s with _reading := false }
  if s1._eof = true ∧ begin = eol then
    ((closeFn s1).1, Output.eofSig)
  else
    let s2 : RState := { s1 with _pos := eol + 1 }
    let eol2 := if eol ≠ 0 ∧ (bufOf s2).getD (eol - 1) 0 = 13 then eol - 1 else eol
    (s2, Output.line (((bufOf s2).take eol2).drop begin))

/-- The compaction half of `_refill`: copy the window to the front of the
buffer (bytes beyond it keep their old values), set `_pos = 0` and `_end`
to the window length. -/
def compactState (s : RState) : RState :=
  { s with
    _buffer := some (window s ++ (bufOf s).drop (window s).length),
    _pos := 0,
    _end := (window s).length }

/-- Bytes a successful `fs.read` of up to `BUF_SIZE - _end` bytes at file
offset `_readPointer` returns (zero exactly at end of file). -/
def readLen (file : List Nat) (s : RState) : Nat :=
  min (BUF_SIZE - s._end) (file.length - s._readPointer)

/-- Write `n` freshly read file bytes into the buffer at `[_end, _end+n)`. -/
def loadBytes (file : List Nat) (s : RState) (n : Nat) : RState :=
  { s with
    _buffer := some ((bufOf s).take s._end ++ (file.drop s._readPointer).take n
      ++ (bufOf s).drop (s._end + n)) }

/-- The `loop()` inside `next()`, under the canonical protocol in which
every disk read resolves successfully and immediately: scan the window for
an LF; on success emit the line; otherwise signal the capacity error when
the unterminated line already fills the whole buffer, or compact, refill
(end of file flushes the trailing chunk via `_emit_line(_end)`), and
rescan.  One fuel unit is spent per refill; fuel
`≥ file.length - _readPointer + 1` is proved sufficient. -/
def loopSyncF (file : List Nat) : Nat → RState → RState × Output
  | 0, s => (s, Output.stuck)
  | fuel + 1, s =>
    let eol := find_eol s
    if eol = s._end then
      if s._pos = 0 ∧ s._end = BUF_SIZE then
        ((closeFn s).1, Output.error ErrKind.capacity)
      else
        let s1 := compactState s
        let n := readLen file s1
        if n = 0 then
          let s2 : RState := { s1 with _eof := true }
          emit_line s2 s2._end
        else
          let s2 : RState := { loadBytes file s1 n with
            _end := s1._end + n, _readPointer := s1._readPointer + n }
          loopSyncF file fuel s2
    else
      emit_line s eol

/-- `ReadFileAsync.next()` under the canonical driver protocol: the
precondition checks (`_reading`, `_eof`, closed buffer), then the scan
loop with `_reading` set. -/
def nextSync (file : List Nat) (s : RState) : RState × Output :=
  if s._reading then
    ((closeFn s).1, Output.error ErrKind.inProgress)
  else if s._eof then
    ((closeFn s).1, Output.eofSig)
  else if s._buffer = none then
    (s, Output.error ErrKind.closed)
  else
    loopSyncF file (file.length + 1) { s with _reading := true }

/-- The driver loop from state `s`: request a line, and keep requesting
after each line delivery until the end-of-file signal or an error. -/
def emitAllF (file : List Nat) : Nat → RState → List Output
  | 0, _ => []
  | fuel + 1, s =>
    match nextSync file s with
    | (s2, Output.line l) => Output.line l :: emitAllF file fuel s2
    | (_, out) => [out]

/-- All deliveries for `file` from a fresh reader (fuel `file.length + 2`
is proved sufficient). -/
def emitAll (file : List Nat) : List Output :=
  emitAllF file (file.length + 2) initReader

/-! ## Spec-side line splitting -/

/-- Split a byte sequence at LF bytes: the LF-terminated raw segments (in
order, without their terminators) and the trailing unterminated chunk. -/
def splitLF : List Nat → List (List Nat) × List Nat
  | [] => ([], [])
  | b :: r =>
    let p := splitLF r
    if b = 10 then ([] :: p.1, p.2)
    else
      match p.1 with
      | [] => ([], b :: p.2)
      | l :: ls2 => ((b :: l) :: ls2, p.2)

/-- Strip one trailing CR: the reader deletes a CR that immediately
precedes the detected end-of-line position. -/
def stripCR (l : List Nat) : List Nat :=
  if l.getLast? = some 13 then l.dropLast else l

/-! ## `firstNL` / `splitLF` / `stripCR` lemmas -/

theorem firstNL_le (w : List Nat) : firstNL w ≤ w.length := by
  induction w with
  | nil => simp [firstNL]
  | cons b r ih =>
    by_cases hb : b = 10 <;> simp [firstNL, hb] <;> omega

theorem firstNL_of_not_mem {w : List Nat} (h : 10 ∉ w) : firstNL w = w.length := by
  induction w with
  | nil => rfl
  | cons b r ih =>
    have hb : ¬b = 10 := fun hb => h (by simp [hb])
    have hr := ih (fun hm => h (List.mem_cons_of_mem _ hm))
    simp [firstNL, hb, hr]

theorem firstNL_append_of_not_mem {w1 : List Nat} (w2 : List Nat) (h : 10 ∉ w1) :
    firstNL (w1 ++ w2) = w1.length + firstNL w2 := by
  induction w1 with
  | nil => simp
  | cons b r ih =>
    have hb : ¬b = 10 := fun hb => h (by simp [hb])
    have hr := ih (fun hm => h (List.mem_cons_of_mem _ hm))
    simp [firstNL, hb, hr]
    omega

theorem firstNL_append_of_mem {w1 : List Nat} (w2 : List Nat) (h : 10 ∈ w1) :
    firstNL (w1 ++ w2) = firstNL w1 := by
  induction w1 with
  | nil => simp at h
  | cons b r ih =>
    by_cases hb : b = 10
    · simp [firstNL, hb]
    · have hr : 10 ∈ r := by
        rcases List.mem_cons.mp h with h1 | h2
        · exact absurd h1.symm hb
        · exact h2
      simp [firstNL, hb, ih hr]

theorem firstNL_decomp {w : List Nat} (h : 10 ∈ w) :
    ∃ a b, w = a ++ 10 :: b ∧ a.length = firstNL w ∧ 10 ∉ a := by
  induction w with
  | nil => simp at h
  | cons x r ih =>
    by_cases hx : x = 10
    · exact ⟨[], r, by simp [hx], by simp [firstNL, hx], by simp⟩
    · have hr : 10 ∈ r := by
        rcases List.mem_cons.mp h with h1 | h2
        · exact absurd h1.symm hx
        · exact h2
      obtain ⟨a, b, hab, hlen, hnm⟩ := ih hr
      refine ⟨x :: a, b, by simp [hab], by simp [firstNL, hx, hlen], ?_⟩
      intro hm
      rcases List.mem_cons.mp hm with h1 | h2
      · exact hx h1.symm
      · exact hnm h2

theorem splitLF_no_lf {rem : List Nat} (h : 10 ∉ rem) : splitLF rem = ([], rem) := by
  induction rem with
  | nil => rfl
  | cons b r ih =>
    have hb : ¬b = 10 := fun hb => h (by simp [hb])
    have hr := ih (fun hm => h (List.mem_cons_of_mem _ hm))
    simp [splitLF, hb, hr]

theorem splitLF_append {a : List Nat} (b : List Nat) (h : 10 ∉ a) :
    splitLF (a ++ 10 :: b) = (a :: (splitLF b).1, (splitLF b).2) := by
  induction a with
  | nil => simp [splitLF]
  | cons c r ih =>
    have hc : ¬c = 10 := fun hc => h (by simp [hc])
    have hr := ih (fun hm => h (List.mem_cons_of_mem _ hm))
    simp only [List.cons_append, splitLF, List.append_eq, hr, hc, if_false]

theorem splitLF_lines_le (rem : List Nat) : (splitLF rem).1.length ≤ rem.length := by
  induction rem with
  | nil => simp [splitLF]
  | cons b r ih =>
    by_cases hb : b = 10
    · simp [splitLF, hb]
      omega
    · simp only [splitLF, hb, if_false]
      cases h : (splitLF r).1 with
      | nil => simp
      | cons l ls2 =>
        simp only []
        rw [h] at ih
        simp at ih ⊢
        omega

theorem stripCR_concat_cr (l : List Nat) : stripCR (l ++ [13]) = l := by
  simp [stripCR, List.getLast?_concat, List.dropLast_concat]

/-! ## Slice and window lemmas -/

theorem getElem?_eq_some_getD {l : List Nat} {n : Nat} (h : n < l.length) (d : Nat) :
    l[n]? = some (l.getD n d) := by
  rw [List.getD_eq_getElem?_getD, List.getElem?_eq_getElem h]
  rfl

theorem slice_take (bu : List Nat) (pos e j : Nat) (h : pos + j ≤ e) :
    (bu.take (pos + j)).drop pos = ((bu.take e).drop pos).take j := by
  rw [List.drop_take, List.drop_take, List.take_take]
  congr 1
  omega

theorem slice_getD (bu : List Nat) (pos e j : Nat) (h : pos + j < e) :
    ((bu.take e).drop pos).getD j 0 = bu.getD (pos + j) 0 := by
  rw [List.getD_eq_getElem?_getD, List.getD_eq_getElem?_getD, List.getElem?_drop,
    List.getElem?_take_of_lt h]

theorem getLast?_take (w : List Nat) (k : Nat) (h1 : 1 ≤ k) (h2 : k ≤ w.length) :
    (w.take k).getLast? = some (w.getD (k - 1) 0) := by
  rw [List.getLast?_eq_getElem?]
  have hl : (w.take k).length = k := by
    rw [List.length_take]; omega
  rw [hl, List.getElem?_take_of_lt (by omega)]
  exact getElem?_eq_some_getD (by omega) 0

theorem dropLast_take {w : List Nat} {k : Nat} (h : k ≤ w.length) :
    (w.take k).dropLast = w.take (k - 1) := by
  rw [List.dropLast_eq_take, List.take_take, List.length_take]
  congr 1
  omega

theorem window_length {s : RState} {bu : List Nat} (hb : s._buffer = some bu)
    (hend : s._end ≤ bu.length) : (window s).length = s._end - s._pos := by
  have h : (window s).length = min s._end bu.length - s._pos := by
    simp [window, bufOf, hb]
  omega

/-! ## `emit_line` characterization -/

theorem emit_line_eofSig (s : RState) (eol : Nat) (heof : s._eof = true)
    (heq : s._pos = eol) :
    emit_line s eol = ((closeFn { s with _reading := false }).1, Output.eofSig) := by
  simp [emit_line, heof, heq]

theorem emit_line_line (s : RState) (bu : List Nat) (k : Nat)
    (hb : s._buffer = some bu) (hpe : s._pos ≤ s._end) (hend : s._end ≤ bu.length)
    (hk : k ≤ s._end - s._pos) (hno : ¬(s._eof = true ∧ k = 0)) :
    emit_line s (s._pos + k) =
      ({ s with _reading := false, _pos := s._pos + k + 1 },
        Output.line (stripCR ((window s).take k))) := by
  have hwl : (window s).length = s._end - s._pos := window_length hb hend
  have hbuf : bufOf s = bu := by simp [bufOf, hb]
  have hw : window s = (bu.take s._end).drop s._pos := by simp [window, hbuf]
  simp only [emit_line]
  rw [if_neg (by
    intro hand
    exact hno ⟨hand.1, by omega⟩)]
  simp only [Prod.mk.injEq, Output.line.injEq]
  refine ⟨by trivial, ?_⟩
  have hbuf2 : bufOf { s with _reading := false, _pos := s._pos + k + 1 } = bu := by
    simp [bufOf, hb]
  cases k with
  | zero =>
    rw [show ((window s).take 0) = [] from rfl, show stripCR [] = [] from rfl]
    split
    · exact List.drop_eq_nil_of_le (by
        simp only [hbuf2, List.length_take] <;> omega)
    · exact List.drop_eq_nil_of_le (by
        simp only [hbuf2, List.length_take] <;> omega)
  | succ j =>
    have hbyte : bu.getD (s._pos + (j + 1) - 1) 0 = (window s).getD j 0 := by
      have h1 := slice_getD bu s._pos s._end j (by omega)
      rw [hw, h1]
      congr 1 <;> omega
    have hlast : ((window s).take (j + 1)).getLast? = some ((window s).getD j 0) := by
      have h2 := getLast?_take (window s) (j + 1) (by omega) (by omega)
      simpa using h2
    rw [hbuf2]
    by_cases h13 : (window s).getD j 0 = 13
    · rw [if_pos ⟨by omega, by rw [hbyte]; exact h13⟩]
      rw [show s._pos + (j + 1) - 1 = s._pos + j by omega]
      rw [slice_take bu s._pos s._end j (by omega), ← hw]
      simp only [stripCR, hlast, Option.some.injEq]
      rw [if_pos h13, dropLast_take (by omega)]
      norm_num
    · rw [if_neg (by
        intro hand
        exact h13 (by rw [← hbyte]; exact hand.2))]
      rw [slice_take bu s._pos s._end (j + 1) (by omega), ← hw]
      simp only [stripCR, hlast, Option.some.injEq]
      rw [if_neg h13]

/-! ## The scanning invariant -/

/-- Invariant tying the reader state to `rem`, the not-yet-delivered tail
of the file: the buffer is open with its fixed capacity, the window is in
bounds, the read pointer is within the file, and the window followed by the
unread file bytes is exactly `rem`. -/
def RInv (file rem : List Nat) (s : RState) : Prop :=
  (∃ bu, s._buffer = some bu ∧ bu.length = BUF_SIZE) ∧
  s._pos ≤ s._end ∧ s._end ≤ BUF_SIZE ∧
  s._readPointer ≤ file.length ∧
  window s ++ file.drop s._readPointer = rem

theorem firstNL_lt_of_mem {w : List Nat} (h : 10 ∈ w) : firstNL w < w.length := by
  obtain ⟨a, b, hab, hlen, hnm⟩ := firstNL_decomp h
  rw [hab, firstNL_append_of_not_mem _ hnm]
  simp [firstNL]

theorem find_eol_eq_end {s : RState} {bu : List Nat} (hb : s._buffer = some bu)
    (hend : s._end ≤ bu.length) (hpe : s._pos ≤ s._end) (h : 10 ∉ window s) :
    find_eol s = s._end := by
  have hwl := window_length hb hend
  rw [find_eol, firstNL_of_not_mem h, hwl]
  omega

theorem find_eol_ne_end {s : RState} {bu : List Nat} (hb : s._buffer = some bu)
    (hend : s._end ≤ bu.length) (h : 10 ∈ window s) :
    ¬find_eol s = s._end := by
  have hwl := window_length hb hend
  have hlt := firstNL_lt_of_mem h
  rw [find_eol]
  omega

/-! ## `loopSyncF` step lemmas -/

theorem loopSyncF_emit (file : List Nat) (fuel : Nat) (s : RState)
    (h : ¬find_eol s = s._end) :
    loopSyncF file (fuel + 1) s = emit_line s (find_eol s) := by
  simp only [loopSyncF]
  rw [if_neg h]

theorem loopSyncF_capacity (file : List Nat) (fuel : Nat) (s : RState)
    (h1 : find_eol s = s._end) (h2 : s._pos = 0 ∧ s._end = BUF_SIZE) :
    loopSyncF file (fuel + 1) s = ((closeFn s).1, Output.error ErrKind.capacity) := by
  simp only [loopSyncF]
  rw [if_pos h1, if_pos h2]

theorem loopSyncF_flush (file : List Nat) (fuel : Nat) (s : RState)
    (h1 : find_eol s = s._end) (h2 : ¬(s._pos = 0 ∧ s._end = BUF_SIZE))
    (h3 : readLen file (compactState s) = 0) :
    loopSyncF file (fuel + 1) s =
      emit_line { compactState s with _eof := true } (compactState s)._end := by
  simp only [loopSyncF]
  rw [if_pos h1, if_neg h2, if_pos h3]

/-- The state after one compact-and-refill round of `_refill` with a
successful read of `readLen` bytes. -/
def refillState (file : List Nat) (s : RState) : RState :=
  let s1 := compactState s
  let n := readLen file s1
  { loadBytes file s1 n with _end := s1._end + n, _readPointer := s1._readPointer + n }

theorem loopSyncF_refill (file : List Nat) (fuel : Nat) (s : RState)
    (h1 : find_eol s = s._end) (h2 : ¬(s._pos = 0 ∧ s._end = BUF_SIZE))
    (h3 : ¬readLen file (compactState s) = 0) :
    loopSyncF file (fuel + 1) s = loopSyncF file fuel (refillState file s) := by
  simp only [loopSyncF, refillState]
  rw [if_pos h1, if_neg h2, if_neg h3]

/-! ## Compaction and refill preserve the invariant -/

theorem compact_window_eq (s : RState) :
    window (compactState s) = window s := by
  show (((window s ++ (bufOf s).drop (window s).length).take (window s).length).drop 0)
      = window s
  rw [List.drop_zero]
  exact take_of_eq_append rfl rfl

theorem compact_buffer_length {file rem : List Nat} {s : RState}
    (hInv : RInv file rem s) :
    ∃ bu1, (compactState s)._buffer = some bu1 ∧ bu1.length = BUF_SIZE := by
  obtain ⟨⟨bu, hb, hBUF⟩, hpe, hend, hrp, hrem⟩ := hInv
  have hbu : bufOf s = bu := by simp [bufOf, hb]
  have hwl : (window s).length = s._end - s._pos := window_length hb (by omega)
  refine ⟨window s ++ (bufOf s).drop (window s).length, rfl, ?_⟩
  simp only [List.length_append, List.length_drop, hbu, hBUF]
  omega

theorem refillState_fields (file : List Nat) (s : RState) :
    (refillState file s)._pos = 0 ∧
    (refillState file s)._end = (window s).length + readLen file (compactState s) ∧
    (refillState file s)._readPointer = s._readPointer + readLen file (compactState s) ∧
    (refillState file s)._eof = s._eof ∧
    (refillState file s)._reading = s._reading ∧
    (refillState file s)._buffer =
      some ((bufOf (compactState s)).take (window s).length ++
        (file.drop s._readPointer).take (readLen file (compactState s)) ++
        (bufOf (compactState s)).drop ((window s).length + readLen file (compactState s))) :=
  ⟨rfl, rfl, rfl, rfl, rfl, rfl⟩

theorem readLen_le_left (file : List Nat) (s : RState) :
    readLen file s ≤ BUF_SIZE - s._end := Nat.min_le_left _ _

theorem readLen_le_right (file : List Nat) (s : RState) :
    readLen file s ≤ file.length - s._readPointer := Nat.min_le_right _ _

theorem refill_inv (file rem : List Nat) (s : RState) (hInv : RInv file rem s) :
    RInv file rem (refillState file s) := by
  have hfields := refillState_fields file s
  obtain ⟨hf_pos, hf_end, hf_rp, hf_eof, hf_reading, hf_buf⟩ := hfields
  have hc_end : (compactState s)._end = (window s).length := rfl
  have hc_rp : (compactState s)._readPointer = s._readPointer := rfl
  set n := readLen file (compactState s) with hn_def
  have hn1 : n ≤ BUF_SIZE - (window s).length := by
    have := readLen_le_left file (compactState s)
    rw [hc_end] at this
    exact this
  have hn2 : n ≤ file.length - s._readPointer := by
    have := readLen_le_right file (compactState s)
    rw [hc_rp] at this
    exact this
  obtain ⟨⟨bu, hb, hBUF⟩, hpe, hend, hrp, hrem⟩ := hInv
  have hbu : bufOf s = bu := by simp [bufOf, hb]
  have hwl : (window s).length = s._end - s._pos := window_length hb (by omega)
  obtain ⟨bu1, hb1, hBUF1⟩ := compact_buffer_length
    ⟨⟨bu, hb, hBUF⟩, hpe, hend, hrp, hrem⟩
  have hbu1 : bufOf (compactState s) = bu1 := by simp [bufOf, hb1]
  have hbu1take : bu1.take (window s).length = window s := by
    have : bu1 = window s ++ (bufOf s).drop (window s).length := by
      have := hb1
      simp only [compactState] at this
      exact (Option.some.injEq _ _).mp this.symm
    rw [this]
    exact take_of_eq_append rfl rfl
  have hnewlen : ((file.drop s._readPointer).take n).length = n := by
    simp only [List.length_take, List.length_drop]
    omega
  have hwin2 : window (refillState file s) =
      window s ++ (file.drop s._readPointer).take n := by
    show ((bufOf (refillState file s)).take (refillState file s)._end).drop
        (refillState file s)._pos = _
    rw [hf_pos, hf_end, List.drop_zero]
    have hbu1g : (compactState s)._buffer.getD [] = bu1 := hbu1
    have hbuf2 : bufOf (refillState file s) =
        (window s ++ (file.drop s._readPointer).take n) ++
          bu1.drop ((window s).length + n) := by
      simp only [bufOf, hf_buf, Option.getD_some, hbu1g, hbu1take]
    rw [hbuf2]
    exact take_of_eq_append rfl (by
      simp only [List.length_append, hnewlen] <;> omega)
  refine ⟨?_, ?_, ?_, ?_, ?_⟩
  · refine ⟨(window s ++ (file.drop s._readPointer).take n) ++
      bu1.drop ((window s).length + n), ?_, ?_⟩
    · rw [hf_buf]
      have hbu1g : (compactState s)._buffer.getD [] = bu1 := hbu1
      simp only [bufOf, hbu1g, hbu1take]
    · simp only [List.length_append, List.length_drop, hBUF1, hnewlen]
      omega
  · rw [hf_pos]
    omega
  · rw [hf_end]
    omega
  · rw [hf_rp]
    omega
  · rw [hwin2, hf_rp]
    have hsplit : (file.drop s._readPointer).take n ++ file.drop (s._readPointer + n) =
        file.drop s._readPointer := by
      rw [← List.drop_drop]
      exact List.take_append_drop n (file.drop s._readPointer)
    rw [List.append_assoc, hsplit, hrem]

/-! ## `loopSyncF` case analysis -/

theorem readLen_zero_rem {file rem : List Nat} {s : RState} (hInv : RInv file rem s)
    (h2 : ¬(s._pos = 0 ∧ s._end = BUF_SIZE))
    (h3 : readLen file (compactState s) = 0) :
    rem = window s ∧ file.drop s._readPointer = [] := by
  obtain ⟨⟨bu, hb, hBUF⟩, hpe, hend, hrp, hrem⟩ := hInv
  have hwl : (window s).length = s._end - s._pos := window_length hb (by omega)
  have h3g : min (BUF_SIZE - (window s).length) (file.length - s._readPointer) = 0 := h3
  have hdrop : file.drop s._readPointer = [] := by
    apply List.drop_eq_nil_of_le
    omega
  refine ⟨?_, hdrop⟩
  rw [← hrem, hdrop, List.append_nil]

theorem loopSync_rem_nil (file : List Nat) (fuel : Nat) (s : RState)
    (hInv : RInv file [] s) (heof : s._eof = false) (hfuel : 1 ≤ fuel) :
    ∃ s2, loopSyncF file fuel s = (s2, Output.eofSig) ∧ s2._buffer = none := by
  obtain ⟨fuel, rfl⟩ : ∃ f, fuel = f + 1 := ⟨fuel - 1, by omega⟩
  obtain ⟨⟨bu, hb, hBUF⟩, hpe, hend, hrp, hrem⟩ := hInv
  have hwl : (window s).length = s._end - s._pos := window_length hb (by omega)
  have hwnil : window s = [] := by
    cases hw : window s with
    | nil => rfl
    | cons x t => rw [hw] at hrem; simp at hrem
  have hfe : find_eol s = s._end := by
    rw [find_eol, hwnil]
    show s._pos + firstNL [] = s._end
    rw [hwnil] at hwl
    simp only [List.length_nil] at hwl
    simp [firstNL]
    omega
  have hBpos : 0 < BUF_SIZE := by norm_num [BUF_SIZE]
  have hnotcap : ¬(s._pos = 0 ∧ s._end = BUF_SIZE) := by
    rw [hwnil] at hwl
    simp only [List.length_nil] at hwl
    omega
  have hdropnil : file.drop s._readPointer = [] := by
    rw [hwnil] at hrem
    simpa using hrem
  have hn0 : readLen file (compactState s) = 0 := by
    show min (BUF_SIZE - (window s).length) (file.length - s._readPointer) = 0
    have hdl := congrArg List.length hdropnil
    simp only [List.length_drop, List.length_nil] at hdl
    omega
  rw [loopSyncF_flush file fuel s hfe hnotcap hn0]
  rw [emit_line_eofSig _ _ rfl (by
    show (0 : Nat) = (window s).length
    rw [hwnil]
    rfl)]
  refine ⟨_, rfl, ?_⟩
  have hcb : (compactState s)._buffer =
      some (window s ++ (bufOf s).drop (window s).length) := rfl
  simp [closeFn, hcb]

theorem loopSync_capacity (file : List Nat) : ∀ (fuel : Nat) (rem : List Nat) (s : RState),
    RInv file rem s → s._eof = false →
    file.length - s._readPointer + 1 ≤ fuel →
    BUF_SIZE ≤ firstNL rem →
    ∃ s2, loopSyncF file fuel s = (s2, Output.error ErrKind.capacity) ∧
      s2._buffer = none := by
  intro fuel
  induction fuel with
  | zero =>
    intro rem s _ _ hfuel _
    omega
  | succ fuel ih =>
    intro rem s hInv heof hfuel hcap
    obtain ⟨⟨bu, hb, hBUF⟩, hpe, hend, hrp, hrem⟩ := hInv
    have hwl : (window s).length = s._end - s._pos := window_length hb (by omega)
    have hnmem : 10 ∉ window s := by
      intro hmem
      have h1 : firstNL rem = firstNL (window s) := by
        rw [← hrem]
        exact firstNL_append_of_mem _ hmem
      have h2 := firstNL_lt_of_mem hmem
      omega
    have hfe : find_eol s = s._end := find_eol_eq_end hb (by omega) hpe hnmem
    by_cases hcapc : s._pos = 0 ∧ s._end = BUF_SIZE
    · rw [loopSyncF_capacity file fuel s hfe hcapc]
      refine ⟨_, rfl, ?_⟩
      simp [closeFn, hb]
    · by_cases hn0 : readLen file (compactState s) = 0
      · exfalso
        obtain ⟨hremw, hdrop⟩ := readLen_zero_rem
          ⟨⟨bu, hb, hBUF⟩, hpe, hend, hrp, hrem⟩ hcapc hn0
        have hf : firstNL rem = (window s).length := by
          rw [hremw]
          exact firstNL_of_not_mem hnmem
        omega
      · rw [loopSyncF_refill file fuel s hfe hcapc hn0]
        have hInv2 := refill_inv file rem s ⟨⟨bu, hb, hBUF⟩, hpe, hend, hrp, hrem⟩
        obtain ⟨hf_pos, hf_end, hf_rp, hf_eof, hf_reading, hf_buf⟩ := refillState_fields file s
        refine ih rem (refillState file s) hInv2 (by rw [hf_eof]; exact heof) ?_ hcap
        rw [hf_rp]
        have h2 := readLen_le_right file (compactState s)
        have hc_rp : (compactState s)._readPointer = s._readPointer := rfl
        rw [hc_rp] at h2
        omega

theorem loopSync_line (file : List Nat) : ∀ (fuel : Nat) (rem : List Nat) (s : RState),
    RInv file rem s → s._eof = false →
    file.length - s._readPointer + 1 ≤ fuel →
    10 ∈ rem → firstNL rem < BUF_SIZE →
    ∃ s2, loopSyncF file fuel s = (s2, Output.line (stripCR (rem.take (firstNL rem)))) ∧
      RInv file (rem.drop (firstNL rem + 1)) s2 ∧ s2._eof = false ∧ s2._reading = false := by
  intro fuel
  induction fuel with
  | zero =>
    intro rem s _ _ hfuel _ _
    omega
  | succ fuel ih =>
    intro rem s hInv heof hfuel hmem10 hlt
    obtain ⟨⟨bu, hb, hBUF⟩, hpe, hend, hrp, hrem⟩ := hInv
    have hwl : (window s).length = s._end - s._pos := window_length hb (by omega)
    by_cases hmem : 10 ∈ window s
    · -- the terminator is already in the window: emit
      set k := firstNL (window s) with hk_def
      have hklt : k < (window s).length := firstNL_lt_of_mem hmem
      have hfnl : firstNL rem = k := by
        rw [← hrem]
        exact firstNL_append_of_mem _ hmem
      have hfe_ne : ¬find_eol s = s._end := find_eol_ne_end hb (by omega) hmem
      rw [loopSyncF_emit file fuel s hfe_ne]
      have hfe : find_eol s = s._pos + k := rfl
      rw [hfe]
      rw [emit_line_line s bu k hb hpe (by omega) (by omega) (by simp [heof])]
      have htake : rem.take (firstNL rem) = (window s).take k := by
        rw [hfnl, ← hrem]
        exact List.take_append_of_le_length (by omega)
      rw [htake]
      refine ⟨_, rfl, ?_, heof, rfl⟩
      -- the invariant for the remaining tail
      have hb2 : ({ s with _reading := false, _pos := s._pos + k + 1 } : RState)._buffer
          = some bu := hb
      have hwin2 : window { s with _reading := false, _pos := s._pos + k + 1 }
          = (window s).drop (k + 1) := by
        have hbuf2 : bufOf { s with _reading := false, _pos := s._pos + k + 1 } = bu := by
          simp [bufOf, hb]
        have hw : window s = (bu.take s._end).drop s._pos := by simp [window, bufOf, hb]
        have hL : window { s with _reading := false, _pos := s._pos + k + 1 }
            = (bu.take s._end).drop (s._pos + k + 1) := by
          simp [window, hbuf2]
        rw [hL, hw, List.drop_drop]
        congr 1 <;> omega
      refine ⟨⟨bu, hb2, hBUF⟩, by simp <;> omega, by simp <;> omega, by simp <;> omega, ?_⟩
      rw [hwin2, hfnl]
      show (window s).drop (k + 1) ++ file.drop s._readPointer = rem.drop (k + 1)
      rw [← hrem]
      exact (List.drop_append_of_le_length (by omega)).symm
    · -- no terminator in the window yet: the loop refills
      have hfe : find_eol s = s._end := find_eol_eq_end hb (by omega) hpe hmem
      by_cases hcapc : s._pos = 0 ∧ s._end = BUF_SIZE
      · exfalso
        have hwlen : (window s).length = BUF_SIZE := by omega
        have : firstNL rem = (window s).length + firstNL (file.drop s._readPointer) := by
          rw [← hrem]
          exact firstNL_append_of_not_mem _ hmem
        omega
      · by_cases hn0 : readLen file (compactState s) = 0
        · exfalso
          obtain ⟨hremw, hdrop⟩ := readLen_zero_rem
            ⟨⟨bu, hb, hBUF⟩, hpe, hend, hrp, hrem⟩ hcapc hn0
          rw [hremw] at hmem10
          exact hmem hmem10
        · rw [loopSyncF_refill file fuel s hfe hcapc hn0]
          have hInv2 := refill_inv file rem s ⟨⟨bu, hb, hBUF⟩, hpe, hend, hrp, hrem⟩
          obtain ⟨hf_pos, hf_end, hf_rp, hf_eof, hf_reading, hf_buf⟩ :=
            refillState_fields file s
          refine ih rem (refillState file s) hInv2 (by rw [hf_eof]; exact heof) ?_ hmem10 hlt
          rw [hf_rp]
          have h2 := readLen_le_right file (compactState s)
          have hc_rp : (compactState s)._readPointer = s._readPointer := rfl
          rw [hc_rp] at h2
          omega

theorem loopSync_flush_chunk (file : List Nat) :
    ∀ (fuel : Nat) (rem : List Nat) (s : RState),
    RInv file rem s → s._eof = false →
    file.length - s._readPointer + 1 ≤ fuel →
    10 ∉ rem → rem ≠ [] → rem.length < BUF_SIZE →
    ∃ s2, loopSyncF file fuel s = (s2, Output.line (stripCR rem)) ∧
      s2._eof = true ∧ s2._reading = false := by
  intro fuel
  induction fuel with
  | zero =>
    intro rem s _ _ hfuel _ _ _
    omega
  | succ fuel ih =>
    intro rem s hInv heof hfuel hnm hne hlen
    obtain ⟨⟨bu, hb, hBUF⟩, hpe, hend, hrp, hrem⟩ := hInv
    have hwl : (window s).length = s._end - s._pos := window_length hb (by omega)
    have hwmem : 10 ∉ window s := by
      intro hmem
      exact hnm (by rw [← hrem]; exact List.mem_append_left _ hmem)
    have hfe : find_eol s = s._end := find_eol_eq_end hb (by omega) hpe hwmem
    have hremlen : (window s).length ≤ rem.length := by
      rw [← hrem]
      simp
    by_cases hcapc : s._pos = 0 ∧ s._end = BUF_SIZE
    · exfalso
      omega
    · by_cases hn0 : readLen file (compactState s) = 0
      · -- end of file: flush the chunk
        obtain ⟨hremw, hdrop⟩ := readLen_zero_rem
          ⟨⟨bu, hb, hBUF⟩, hpe, hend, hrp, hrem⟩ hcapc hn0
        rw [loopSyncF_flush file fuel s hfe hcapc hn0]
        obtain ⟨bu1, hb1, hBUF1⟩ := compact_buffer_length
          ⟨⟨bu, hb, hBUF⟩, hpe, hend, hrp, hrem⟩
        have hrlen : 1 ≤ (window s).length := by
          rw [← hremw]
          cases hr : rem with
          | nil => exact absurd hr hne
          | cons x t => simp
        have hid : (compactState s)._end =
            ({ compactState s with _eof := true } : RState)._pos + (window s).length := by
          show (window s).length = 0 + (window s).length
          omega
        rw [hid]
        have hb1e : ({ compactState s with _eof := true } : RState)._buffer = some bu1 := hb1
        rw [emit_line_line { compactState s with _eof := true } bu1 (window s).length hb1e
          (by show (0 : Nat) ≤ (window s).length; omega)
          (by show (window s).length ≤ bu1.length; omega)
          (by show (window s).length ≤ (window s).length - 0; omega)
          (by intro hand; omega)]
        have hws : window ({ compactState s with _eof := true } : RState) = window s :=
          compact_window_eq s
        have hpayload : ((window ({ compactState s with _eof := true } : RState)).take
            (window s).length) = rem := by
          rw [hws, List.take_length]
          exact hremw.symm
        rw [hpayload]
        exact ⟨_, rfl, rfl, rfl⟩
      · rw [loopSyncF_refill file fuel s hfe hcapc hn0]
        have hInv2 := refill_inv file rem s ⟨⟨bu, hb, hBUF⟩, hpe, hend, hrp, hrem⟩
        obtain ⟨hf_pos, hf_end, hf_rp, hf_eof, hf_reading, hf_buf⟩ :=
          refillState_fields file s
        refine ih rem (refillState file s) hInv2 (by rw [hf_eof]; exact heof) ?_ hnm hne hlen
        rw [hf_rp]
        have h2 := readLen_le_right file (compactState s)
        have hc_rp : (compactState s)._readPointer = s._readPointer := rfl
        rw [hc_rp] at h2
        omega

/-! ## Driver-level correctness -/

/-- All raw line segments (terminated segments and the trailing chunk) are
shorter than the buffer: the side condition under which the reader never
hits the capacity error. -/
def SegsOK (rem : List Nat) : Prop :=
  (∀ l ∈ (splitLF rem).1, l.length < BUF_SIZE) ∧ (splitLF rem).2.length < BUF_SIZE

/-- The emission sequence prescribed for a byte sequence: one stripped line
per terminator, in byte order; one extra line for a non-empty trailing
chunk; then a single end-of-file signal. -/
def specEmits (rem : List Nat) : List Output :=
  (splitLF rem).1.map (fun l => Output.line (stripCR l)) ++
    (if (splitLF rem).2 = [] then [] else [Output.line (stripCR (splitLF rem).2)]) ++
    [Output.eofSig]

theorem emitAllF_line (file : List Nat) (fuel : Nat) (s s2 : RState) (l : List Nat)
    (h : nextSync file s = (s2, Output.line l)) :
    emitAllF file (fuel + 1) s = Output.line l :: emitAllF file fuel s2 := by
  simp only [emitAllF]
  rw [h]

theorem emitAllF_last (file : List Nat) (fuel : Nat) (s s2 : RState) (out : Output)
    (h : nextSync file s = (s2, out)) (hno : ∀ l, ¬out = Output.line l) :
    emitAllF file (fuel + 1) s = [out] := by
  simp only [emitAllF]
  rw [h]
  cases out with
  | line l => exact absurd rfl (hno l)
  | eofSig => rfl
  | error e => rfl
  | stuck => rfl

theorem emitAllF_eof_state (file : List Nat) (fuel : Nat) (s : RState)
    (heof : s._eof = true) (hreading : s._reading = false) (hf : 1 ≤ fuel) :
    emitAllF file fuel s = [Output.eofSig] := by
  obtain ⟨fuel, rfl⟩ : ∃ f, fuel = f + 1 := ⟨fuel - 1, by omega⟩
  have hns : nextSync file s = ((closeFn s).1, Output.eofSig) := by
    simp [nextSync, hreading, heof]
  exact emitAllF_last file fuel s _ _ hns (by intro l; simp)

theorem specEmits_cons {rem a : List Nat} (b : List Nat)
    (hab : rem = a ++ 10 :: b) (hnma : 10 ∉ a) :
    specEmits rem = Output.line (stripCR a) :: specEmits b := by
  simp [specEmits, hab, splitLF_append b hnma]

theorem emitAllF_spec (file : List Nat) : ∀ (fuel : Nat) (rem : List Nat) (s : RState),
    RInv file rem s → s._eof = false → s._reading = false →
    SegsOK rem → (splitLF rem).1.length + 2 ≤ fuel →
    emitAllF file fuel s = specEmits rem := by
  intro fuel
  induction fuel with
  | zero =>
    intro rem s _ _ _ _ h
    omega
  | succ fuel ih =>
    intro rem s hInv heof hreading hsegs hfuel
    have hread : nextSync file s =
        loopSyncF file (file.length + 1) { s with _reading := true } := by
      obtain ⟨⟨bu, hb, _⟩, _, _, _, _⟩ := hInv
      simp [nextSync, hreading, heof, hb]
    have hInv2 : RInv file rem { s with _reading := true } := by
      obtain ⟨⟨bu, hb, hBUF⟩, h1, h2, h3, h4⟩ := hInv
      exact ⟨⟨bu, hb, hBUF⟩, h1, h2, h3, h4⟩
    by_cases hnil : rem = []
    · subst hnil
      obtain ⟨s2, hstep, hclosed⟩ :=
        loopSync_rem_nil file (file.length + 1) _ hInv2 heof (by omega)
      have hns : nextSync file s = (s2, Output.eofSig) := by rw [hread]; exact hstep
      rw [emitAllF_last file fuel s _ _ hns (by intro l; simp)]
      simp [specEmits, splitLF]
    · by_cases hmem : 10 ∈ rem
      · obtain ⟨a, b, hab, hlen_a, hnma⟩ := firstNL_decomp hmem
        have hsplit : splitLF rem = (a :: (splitLF b).1, (splitLF b).2) := by
          rw [hab]
          exact splitLF_append b hnma
        have hfnlt : firstNL rem < BUF_SIZE := by
          have := hsegs.1 a (by rw [hsplit]; simp)
          omega
        obtain ⟨s2, hstep, hInv3, heof3, hreading3⟩ :=
          loopSync_line file (file.length + 1) rem _ hInv2 heof (by omega) hmem hfnlt
        have htake_a : rem.take (firstNL rem) = a :=
          take_of_eq_append hab (by omega)
        have hdrop_b : rem.drop (firstNL rem + 1) = b :=
          drop_of_eq_append (show rem = (a ++ [10]) ++ b by rw [hab]; simp)
            (by simp only [List.length_append, List.length_cons, List.length_nil] <;> omega)
        have hns : nextSync file s = (s2, Output.line (stripCR a)) := by
          rw [hread, hstep, htake_a]
        rw [emitAllF_line file fuel s s2 _ hns]
        rw [hdrop_b] at hInv3
        have hsegs_b : SegsOK b := by
          constructor
          · intro l hl
            exact hsegs.1 l (by rw [hsplit]; exact List.mem_cons_of_mem _ hl)
          · have := hsegs.2
            rw [hsplit] at this
            exact this
        rw [ih b s2 hInv3 heof3 hreading3 hsegs_b (by
          have := hfuel
          rw [hsplit] at this
          simp at this
          omega)]
        exact (specEmits_cons b hab hnma).symm
      · have hsplit : splitLF rem = ([], rem) := splitLF_no_lf hmem
        have hlenrem : rem.length < BUF_SIZE := by
          have := hsegs.2
          rw [hsplit] at this
          exact this
        obtain ⟨s2, hstep, heof2, hreading2⟩ :=
          loopSync_flush_chunk file (file.length + 1) rem _ hInv2 heof (by omega) hmem
            hnil hlenrem
        have hns : nextSync file s = (s2, Output.line (stripCR rem)) := by
          rw [hread]; exact hstep
        rw [emitAllF_line file fuel s s2 _ hns]
        rw [emitAllF_eof_state file fuel s2 heof2 hreading2 (by omega)]
        simp [specEmits, hsplit, hnil]

theorem initReader_inv (file : List Nat) : RInv file file initReader := by
  refine ⟨⟨List.replicate BUF_SIZE 0, rfl, by simp⟩, Nat.le_refl 0, Nat.zero_le _,
    Nat.zero_le _, ?_⟩
  simp [window, bufOf, initReader]

theorem emitAll_of_segsOK (file : List Nat) (h : SegsOK file) :
    emitAll file = specEmits file := by
  show emitAllF file (file.length + 2) initReader = specEmits file
  apply emitAllF_spec file (file.length + 2) file initReader (initReader_inv file) rfl rfl h
  have := splitLF_lines_le file
  omega

/-- **C1** (amended): for every file all of whose raw line segments
(terminated segments and trailing chunk) are shorter than `BUF_SIZE`, the
driver protocol delivers exactly one stripped line per LF terminator, in
byte order, followed by one extra line for the trailing chunk when it is
non-empty, and then a single end-of-file signal; a file ending exactly on a
terminator yields no phantom empty final line and an empty file yields only
the end-of-file signal. -/
theorem emitAll_line_splitting (file : List Nat) (h : SegsOK file) :
    emitAll file = specEmits file :=
  emitAll_of_segsOK file h

theorem emitAll_line_splitting_witness :
    SegsOK [97, 10, 98] ∧ emitAll [97, 10, 98] = specEmits [97, 10, 98] :=
  ⟨by unfold SegsOK; decide, emitAll_line_splitting [97, 10, 98] (by unfold SegsOK; decide)⟩

theorem nextSync_capacity_closed (file : List Nat) (hcap : BUF_SIZE ≤ firstNL file) :
    ∃ s2, nextSync file initReader = (s2, Output.error ErrKind.capacity) ∧
      s2._buffer = none := by
  have hInv2 : RInv file file { initReader with _reading := true } := by
    obtain ⟨⟨bu, hb, hBUF⟩, h1, h2, h3, h4⟩ := initReader_inv file
    exact ⟨⟨bu, hb, hBUF⟩, h1, h2, h3, h4⟩
  obtain ⟨s2, hstep, hclosed⟩ := loopSync_capacity file
    (file.length + 1) file { initReader with _reading := true } hInv2 rfl (by omega) hcap
  have hread : nextSync file initReader =
      loopSyncF file (file.length + 1) { initReader with _reading := true } := by
    simp [nextSync, initReader]
  exact ⟨s2, by rw [hread]; exact hstep, hclosed⟩

theorem emitAll_capacity_of_long_first_line (file : List Nat)
    (hcap : BUF_SIZE ≤ firstNL file) :
    emitAll file = [Output.error ErrKind.capacity] := by
  obtain ⟨s2, hns, _⟩ := nextSync_capacity_closed file hcap
  show emitAllF file (file.length + 2) initReader = _
  rw [emitAllF_last file (file.length + 1) _ _ _ hns (by intro l; simp)]

/-- **C1** (counterexample): the claim as frozen quantifies over every
file, but a file consisting of one unterminated line of `BUF_SIZE` bytes
makes `next()` signal the capacity error: the reader emits
`[error capacity]` rather than the prescribed line and end-of-file
sequence. -/
theorem emitAll_capacity_counterexample :
    emitAll (List.replicate BUF_SIZE 97) = [Output.error ErrKind.capacity] ∧
    ¬emitAll (List.replicate BUF_SIZE 97) = specEmits (List.replicate BUF_SIZE 97) := by
  have hnm : (10 : Nat) ∉ List.replicate BUF_SIZE 97 := by
    intro hm
    have := List.eq_of_mem_replicate hm
    omega
  have hcap : BUF_SIZE ≤ firstNL (List.replicate BUF_SIZE 97) := by
    rw [firstNL_of_not_mem hnm, List.length_replicate]
  have h1 := emitAll_capacity_of_long_first_line (List.replicate BUF_SIZE 97) hcap
  refine ⟨h1, ?_⟩
  rw [h1]
  have hchunk : (splitLF (List.replicate BUF_SIZE 97)).2 = List.replicate BUF_SIZE 97 := by
    rw [splitLF_no_lf hnm]
  simp only [specEmits, splitLF_no_lf hnm, List.map_nil, List.nil_append]
  rw [if_neg (by
    intro hrep
    have hrl := congrArg List.length hrep
    simp only [List.length_replicate, List.length_nil] at hrl
    norm_num [BUF_SIZE] at hrl)]
  simp

/-! ## First-emission helper -/

theorem nextSync_first (file : List Nat) (hmem : 10 ∈ file)
    (hlt : firstNL file < BUF_SIZE) :
    (nextSync file initReader).2 = Output.line (stripCR (file.take (firstNL file))) := by
  have hInv2 : RInv file file { initReader with _reading := true } := by
    obtain ⟨⟨bu, hb, hBUF⟩, h1, h2, h3, h4⟩ := initReader_inv file
    exact ⟨⟨bu, hb, hBUF⟩, h1, h2, h3, h4⟩
  obtain ⟨s2, hstep, hInv3, heof3, hreading3⟩ := loopSync_line file
    (file.length + 1) file { initReader with _reading := true } hInv2 rfl (by omega)
    hmem hlt
  have hread : nextSync file initReader =
      loopSyncF file (file.length + 1) { initReader with _reading := true } := by
    simp [nextSync, initReader]
  rw [hread, hstep]

theorem getLast?_of_snd_ne_nil {l1 l2 : List Nat} (x : Nat) (h : l2 ≠ []) :
    (l1 ++ x :: l2).getLast? = l2.getLast? := by
  obtain ⟨y, hy⟩ : ∃ y, l2.getLast? = some y := by
    cases hg : l2.getLast? with
    | none =>
      rw [List.getLast?_eq_none_iff] at hg
      exact absurd hg h
    | some y => exact ⟨y, rfl⟩
  rw [List.getLast?_append, hy]
  have hx : (x :: l2).getLast? = some y := by
    rw [show x :: l2 = [x] ++ l2 by simp, List.getLast?_append, hy]
    rfl
  rw [hx]
  rfl

/-- **C4** (amended): a carriage return is stripped exactly when it
immediately precedes the detected end-of-line position — the LF, or the
end of data at the end-of-file flush.  CRLF- and bare-LF-terminated lines
with the same content yield the same stripped text, a lone CR elsewhere in
a line is delivered as ordinary content, but a CR that is the last byte of
a file with no final terminator is stripped from the flushed final line. -/
theorem cr_stripping_behaviour :
    (∀ l rest : List Nat, 10 ∉ l → l.length + 1 < BUF_SIZE →
      (nextSync (l ++ 13 :: 10 :: rest) initReader).2 = Output.line l ∧
      (nextSync (l ++ 10 :: rest) initReader).2 = Output.line (stripCR l)) ∧
    (∀ l1 l2 rest : List Nat, 10 ∉ l1 → 10 ∉ l2 → l2 ≠ [] →
      l2.getLast? ≠ some 13 → (l1 ++ 13 :: l2).length < BUF_SIZE →
      (nextSync (l1 ++ 13 :: l2 ++ 10 :: rest) initReader).2 =
        Output.line (l1 ++ 13 :: l2)) ∧
    (∀ l : List Nat, 10 ∉ l → l.length + 1 < BUF_SIZE →
      emitAll (l ++ [13]) = [Output.line l, Output.eofSig]) := by
  refine ⟨?_, ?_, ?_⟩
  · intro l rest hnm hlen
    constructor
    · have hmem : 10 ∈ l ++ 13 :: 10 :: rest := by simp
      have hf : firstNL (l ++ 13 :: 10 :: rest) = l.length + 1 := by
        rw [firstNL_append_of_not_mem _ hnm]
        simp [firstNL]
      have htk : (l ++ 13 :: 10 :: rest).take (firstNL (l ++ 13 :: 10 :: rest))
          = l ++ [13] := by
        rw [hf]
        exact take_of_eq_append_add rfl rfl
      rw [nextSync_first _ hmem (by omega), htk, stripCR_concat_cr]
    · have hmem : 10 ∈ l ++ 10 :: rest := by simp
      have hf : firstNL (l ++ 10 :: rest) = l.length := by
        rw [firstNL_append_of_not_mem _ hnm]
        simp [firstNL]
      have htk : (l ++ 10 :: rest).take (firstNL (l ++ 10 :: rest)) = l := by
        rw [hf]
        exact take_of_eq_append rfl rfl
      rw [nextSync_first _ hmem (by omega), htk]
  · intro l1 l2 rest hnm1 hnm2 hne hlast hlen
    have hnmL : 10 ∉ l1 ++ 13 :: l2 := by
      intro hm
      rcases List.mem_append.mp hm with h1 | h2
      · exact hnm1 h1
      · rcases List.mem_cons.mp h2 with h3 | h4
        · omega
        · exact hnm2 h4
    have hfile : l1 ++ 13 :: l2 ++ 10 :: rest = (l1 ++ 13 :: l2) ++ 10 :: rest := by
      simp
    have hmem : 10 ∈ l1 ++ 13 :: l2 ++ 10 :: rest := by simp
    have hf : firstNL (l1 ++ 13 :: l2 ++ 10 :: rest) = (l1 ++ 13 :: l2).length := by
      rw [hfile, firstNL_append_of_not_mem _ hnmL]
      simp [firstNL]
    have htk : (l1 ++ 13 :: l2 ++ 10 :: rest).take
        (firstNL (l1 ++ 13 :: l2 ++ 10 :: rest)) = l1 ++ 13 :: l2 := by
      rw [hf, hfile]
      exact take_of_eq_append rfl rfl
    have hstrip : stripCR (l1 ++ 13 :: l2) = l1 ++ 13 :: l2 := by
      rw [stripCR, if_neg]
      rw [getLast?_of_snd_ne_nil 13 hne]
      exact hlast
    rw [nextSync_first _ hmem (by omega), htk, hstrip]
  · intro l hnm hlen
    have hnmL : 10 ∉ l ++ [13] := by
      intro hm
      rcases List.mem_append.mp hm with h1 | h2
      · exact hnm h1
      · simp at h2
    have hsplit : splitLF (l ++ [13]) = ([], l ++ [13]) := splitLF_no_lf hnmL
    have hsegs : SegsOK (l ++ [13]) := by
      constructor
      · intro x hx
        rw [hsplit] at hx
        simp at hx
      · rw [hsplit]
        simp
        omega
    rw [emitAll_of_segsOK _ hsegs]
    simp only [specEmits, hsplit, List.map_nil, List.nil_append]
    rw [if_neg (by simp), stripCR_concat_cr]
    rfl

theorem cr_stripping_behaviour_witness :
    ((nextSync [97, 13, 10, 98] initReader).2 = Output.line [97] ∧
      (nextSync [97, 10, 98] initReader).2 = Output.line (stripCR [97])) ∧
    (nextSync [97, 13, 98, 10] initReader).2 = Output.line [97, 13, 98] ∧
    emitAll [97, 13] = [Output.line [97], Output.eofSig] :=
  ⟨cr_stripping_behaviour.1 [97] [98] (by decide) (by decide),
    cr_stripping_behaviour.2.1 [97] [98] [] (by decide) (by decide) (by decide)
      (by decide) (by decide),
    cr_stripping_behaviour.2.2 [97] (by decide) (by decide)⟩

/-- **C4** (counterexample): a lone CR that is the last byte of a file with
no final terminator is NOT delivered as ordinary line content: the
end-of-file flush strips it, so the file `"abc\r"` yields the line `"abc"`
rather than `"abc\r"`. -/
theorem trailing_cr_stripped_counterexample :
    emitAll [97, 98, 99, 13] = [Output.line [97, 98, 99], Output.eofSig] ∧
    ¬emitAll [97, 98, 99, 13] = [Output.line [97, 98, 99, 13], Output.eofSig] := by
  constructor
  · decide
  · decide

/-- **C8**: a line of length exactly `BUF_SIZE - 1` is delivered
successfully — both when an LF terminator follows (the first delivery is
that stripped line) and when the file ends without one (the line is flushed
and the end-of-file signal follows) — while any line whose length reaches
or exceeds `BUF_SIZE` with no terminator in the full buffer makes `next()`
signal the capacity error AND close the reader (the resulting reader state
has `_buffer = none`); the driver consequently observes only that error. -/
theorem exact_fill_boundary :
    (∀ l rest : List Nat, 10 ∉ l → l.length = BUF_SIZE - 1 →
      (nextSync (l ++ 10 :: rest) initReader).2 = Output.line (stripCR l) ∧
      emitAll l = [Output.line (stripCR l), Output.eofSig]) ∧
    (∀ l rest : List Nat, 10 ∉ l → BUF_SIZE ≤ l.length →
      emitAll (l ++ rest) = [Output.error ErrKind.capacity] ∧
      ∃ s2, nextSync (l ++ rest) initReader = (s2, Output.error ErrKind.capacity) ∧
        s2._buffer = none) := by
  constructor
  · intro l rest hnm hlen
    have hBval : BUF_SIZE = 8092 := rfl
    constructor
    · have hmem : 10 ∈ l ++ 10 :: rest := by simp
      have hf : firstNL (l ++ 10 :: rest) = l.length := by
        rw [firstNL_append_of_not_mem _ hnm]
        simp [firstNL]
      have htk : (l ++ 10 :: rest).take (firstNL (l ++ 10 :: rest)) = l := by
        rw [hf]
        exact take_of_eq_append rfl rfl
      rw [nextSync_first _ hmem (by omega), htk]
    · have hsplit : splitLF l = ([], l) := splitLF_no_lf hnm
      have hsegs : SegsOK l := by
        constructor
        · intro x hx
          rw [hsplit] at hx
          simp at hx
        · rw [hsplit]
          show l.length < BUF_SIZE
          omega
      rw [emitAll_of_segsOK _ hsegs]
      simp only [specEmits, hsplit, List.map_nil, List.nil_append]
      rw [if_neg (by
        intro hl
        rw [hl] at hlen
        simp at hlen
        omega)]
      rfl
  · intro l rest hnm hcap
    have hf : BUF_SIZE ≤ firstNL (l ++ rest) := by
      have := firstNL_append_of_not_mem rest hnm
      omega
    exact ⟨emitAll_capacity_of_long_first_line _ hf, nextSync_capacity_closed _ hf⟩

theorem exact_fill_boundary_witness :
    ((nextSync (List.replicate (BUF_SIZE - 1) 97 ++ 10 :: [98]) initReader).2 =
        Output.line (stripCR (List.replicate (BUF_SIZE - 1) 97)) ∧
      emitAll (List.replicate (BUF_SIZE - 1) 97) =
        [Output.line (stripCR (List.replicate (BUF_SIZE - 1) 97)), Output.eofSig]) ∧
    (emitAll (List.replicate BUF_SIZE 98 ++ [99]) = [Output.error ErrKind.capacity] ∧
      ∃ s2, nextSync (List.replicate BUF_SIZE 98 ++ [99]) initReader =
          (s2, Output.error ErrKind.capacity) ∧ s2._buffer = none) :=
  ⟨exact_fill_boundary.1 (List.replicate (BUF_SIZE - 1) 97) [98]
      (fun hm => by
        have := List.eq_of_mem_replicate hm
        omega)
      (List.length_replicate _ _),
    exact_fill_boundary.2 (List.replicate BUF_SIZE 98) [99]
      (fun hm => by
        have := List.eq_of_mem_replicate hm
        omega)
      (Nat.le_of_eq (List.length_replicate _ _).symm)⟩

/-! ## The event-level transition system

The synchronous model above fixes the canonical driver protocol.  The
claims about reentrancy, closing, and stale reads concern other schedules,
so the reader is also modelled as a labelled transition system in which the
environment chooses each event: a `next()` call, a `close()` call, or the
resolution of the outstanding disk read (successfully, with the byte count
determined by the file and the captured read parameters, or with an
I/O error). -/

/-- Parameters of an outstanding `fs.read`, captured when the read is
issued: the buffer offset (`_end` at issue time), the maximum length
(`BUF_SIZE - _end`), and the file offset (`_readPointer`). -/
structure PendingRead where
  bufOff : Nat
  len : Nat
  fpos : Nat
deriving DecidableEq

/-- Reader state plus the at-most-one outstanding disk read. -/
structure MState where
  rd : RState
  pending : Option PendingRead
deriving DecidableEq

/-- Environment events. -/
inductive Ev where
  | next
  | close
  | resolveOk
  | resolveErr
deriving DecidableEq

/-- One iteration of `loop()` inside `next()`: scan for an LF and emit, or
signal the capacity error, or compact and issue a disk read (recorded in
`pending`; the callback continues at that read's resolution). -/
def loopOnce (m : MState) : MState × Option Output :=
  let s := m.rd
  let eol := find_eol s
  if eol = s._end then
    if s._pos = 0 ∧ s._end = BUF_SIZE then
      (⟨(closeFn s).1, m.pending⟩, some (Output.error ErrKind.capacity))
    else
      let s1 := compactState s
      (⟨s1, some ⟨s1._end, BUF_SIZE - s1._end, s1._readPointer⟩⟩, none)
  else
    let r := emit_line s eol
    (⟨r.1, m.pending⟩, some r.2)

/-- Write `n` bytes read from `file` at `p.fpos` into the buffer at
`p.bufOff` (the `fs.read` fills the captured `Buffer` object; nothing
observable remains when the reader's buffer has been released). -/
def writeAt (file : List Nat) (s : RState) (p : PendingRead) (n : Nat) : RState :=
  match s._buffer with
  | none => s
  | some bu =>
    { s with _buffer := some (bu.take p.bufOff ++ (file.drop p.fpos).take n
        ++ bu.drop (p.bufOff + n)) }

/-- The labelled transition function: the successor state and the emission
(at most one) produced by each event.

`next` is the precondition checks of `next()` followed by one `loop()`
iteration; `resolveOk` is the `_refill` callback on a successful read
(`fetched = 0` flushes via `_emit_line(_end)`, `fetched > 0` extends the
window and rescans), run only when the `_reading` guard still holds;
`resolveErr` is the callback's error branch, which emits the error and
closes WITHOUT consulting the `_reading` guard — the `if (err)` test comes
first in the source. -/
def stepEv (file : List Nat) (m : MState) : Ev → MState × Option Output
  | Ev.next =>
    let s := m.rd
    if s._reading then
      (⟨(closeFn s).1, m.pending⟩, some (Output.error ErrKind.inProgress))
    else if s._eof then
      (⟨(closeFn s).1, m.pending⟩, some Output.eofSig)
    else if s._buffer = none then
      (m, some (Output.error ErrKind.closed))
    else
      loopOnce ⟨{ s with _reading := true }, m.pending⟩
  | Ev.close => (⟨(closeFn m.rd).1, m.pending⟩, none)
  | Ev.resolveOk =>
    match m.pending with
    | none => (m, none)
    | some p =>
      let s := m.rd
      if s._reading then
        let n := min p.len (file.length - p.fpos)
        if n = 0 then
          let s2 : RState := { s with _eof := true }
          let r := emit_line s2 s2._end
          (⟨r.1, none⟩, some r.2)
        else
          let s2 : RState := { writeAt file s p n with
            _end := s._end + n, _readPointer := s._readPointer + n }
          loopOnce ⟨s2, none⟩
      else
        (⟨s, none⟩, none)
  | Ev.resolveErr =>
    match m.pending with
    | none => (m, none)
    | some _ => (⟨(closeFn m.rd).1, none⟩, some (Output.error ErrKind.ioErr))

/-- Initial machine: fresh reader, no outstanding read. -/
def initM : MState := ⟨initReader, none⟩

/-- States reachable by some event sequence from the fresh reader. -/
inductive Reachable (file : List Nat) : MState → Prop where
  | init : Reachable file initM
  | step (m : MState) (e : Ev) : Reachable file m → Reachable file (stepEv file m e).1

/-- Multi-step successor relation from an arbitrary state. -/
inductive Steps (file : List Nat) : MState → MState → Prop where
  | refl (m : MState) : Steps file m m
  | tail (m1 m2 : MState) (e : Ev) : Steps file m1 m2 → Steps file m1 (stepEv file m2 e).1

/-- Master invariant of reachable machine states. -/
structure MInv (m : MState) : Prop where
  end_le : m.rd._end ≤ BUF_SIZE
  pos_le : m.rd._pos ≤ m.rd._end + 1
  pos_le_of_eof : m.rd._eof = false → m.rd._pos ≤ m.rd._end
  eof_of_reading : m.rd._reading = true → m.rd._eof = false
  buf_of_reading : m.rd._reading = true → ¬m.rd._buffer = none
  buf_len : ∀ bu, m.rd._buffer = some bu → bu.length = BUF_SIZE
  pending_match : m.rd._reading = true → ∀ p, m.pending = some p →
    p.bufOff = m.rd._end ∧ p.len = BUF_SIZE - m.rd._end ∧ p.fpos = m.rd._readPointer
  pending_some : m.rd._reading = true → ¬m.pending = none

theorem minv_not_reading (m : MState) (hr : m.rd._reading = false)
    (h1 : m.rd._end ≤ BUF_SIZE) (h2 : m.rd._pos ≤ m.rd._end + 1)
    (h3 : m.rd._eof = false → m.rd._pos ≤ m.rd._end)
    (h6 : ∀ bu, m.rd._buffer = some bu → bu.length = BUF_SIZE) : MInv m := by
  refine ⟨h1, h2, h3, ?_, ?_, h6, ?_, ?_⟩ <;> intro h <;> rw [hr] at h <;> simp at h

theorem compact_buffer_some (s : RState) (bu : List Nat) (hb : s._buffer = some bu)
    (hBUF : bu.length = BUF_SIZE) (hpe : s._pos ≤ s._end) (hend : s._end ≤ BUF_SIZE) :
    ∀ bu1, (compactState s)._buffer = some bu1 → bu1.length = BUF_SIZE := by
  intro bu1 hb1
  have hwl : (window s).length = s._end - s._pos := window_length hb (by omega)
  have hcb : (compactState s)._buffer =
      some (window s ++ (bufOf s).drop (window s).length) := rfl
  rw [hcb] at hb1
  injection hb1 with h
  subst h
  have hbu : bufOf s = bu := by simp [bufOf, hb]
  simp only [List.length_append, List.length_drop, hbu, hBUF]
  omega

theorem loopOnce_minv (m : MState)
    (hend : m.rd._end ≤ BUF_SIZE) (hpe : m.rd._pos ≤ m.rd._end)
    (heof : m.rd._eof = false)
    (hbuf : ∀ bu, m.rd._buffer = some bu → bu.length = BUF_SIZE)
    (hbsome : ¬m.rd._buffer = none) :
    MInv (loopOnce m).1 := by
  obtain ⟨bu, hb⟩ : ∃ bu, m.rd._buffer = some bu := by
    cases hbb : m.rd._buffer with
    | none => exact absurd hbb hbsome
    | some bu => exact ⟨bu, rfl⟩
  have hBUF := hbuf bu hb
  have hwl : (window m.rd).length = m.rd._end - m.rd._pos := window_length hb (by omega)
  by_cases h1 : find_eol m.rd = m.rd._end
  · by_cases h2 : m.rd._pos = 0 ∧ m.rd._end = BUF_SIZE
    · have hstep : (loopOnce m).1 = ⟨(closeFn m.rd).1, m.pending⟩ := by
        simp only [loopOnce]
        rw [if_pos h1, if_pos h2]
      rw [hstep]
      have hcl : (closeFn m.rd).1 = { m.rd with _buffer := none, _reading := false } := by
        simp [closeFn, hb]
      rw [hcl]
      exact minv_not_reading _ rfl hend
        (by show m.rd._pos ≤ m.rd._end + 1; omega) (fun _ => hpe)
        (fun bu2 hbu2 => by simp at hbu2)
    · have hstep : (loopOnce m).1 = ⟨compactState m.rd,
          some ⟨(compactState m.rd)._end, BUF_SIZE - (compactState m.rd)._end,
            (compactState m.rd)._readPointer⟩⟩ := by
        simp only [loopOnce]
        rw [if_pos h1, if_neg h2]
      rw [hstep]
      refine ⟨?_, ?_, ?_, ?_, ?_, ?_, ?_, ?_⟩
      · show (window m.rd).length ≤ BUF_SIZE
        omega
      · show (0 : Nat) ≤ (window m.rd).length + 1
        omega
      · intro _
        show (0 : Nat) ≤ (window m.rd).length
        omega
      · intro _
        exact heof
      · intro _
        show ¬some (window m.rd ++ (bufOf m.rd).drop (window m.rd).length) = none
        simp
      · exact compact_buffer_some m.rd bu hb hBUF hpe hend
      · intro _ p hp
        injection hp with h
        subst h
        exact ⟨rfl, rfl, rfl⟩
      · intro _
        simp
  · have hk : firstNL (window m.rd) < m.rd._end - m.rd._pos := by
      have hle := firstNL_le (window m.rd)
      have hfe : find_eol m.rd = m.rd._pos + firstNL (window m.rd) := rfl
      rw [hfe] at h1
      omega
    have hstep : (loopOnce m).1 =
        MState.mk
          { m.rd with _reading := false, _pos := m.rd._pos + firstNL (window m.rd) + 1 }
          m.pending := by
      simp only [loopOnce]
      rw [if_neg h1]
      have hfe : find_eol m.rd = m.rd._pos + firstNL (window m.rd) := rfl
      rw [hfe, emit_line_line m.rd bu (firstNL (window m.rd)) hb hpe (by omega) (by omega)
        (by simp [heof])]
    rw [hstep]
    exact minv_not_reading _ rfl hend
      (by show m.rd._pos + firstNL (window m.rd) + 1 ≤ m.rd._end + 1; omega)
      (fun _ => by show m.rd._pos + firstNL (window m.rd) + 1 ≤ m.rd._end; omega)
      (fun bu2 hbu2 => hbuf bu2 hbu2)

theorem emit_flush_minv (s : RState) (bu : List Nat) (hb : s._buffer = some bu)
    (hend : s._end ≤ BUF_SIZE) (hpe : s._pos ≤ s._end)
    (hbuf : ∀ b2, s._buffer = some b2 → b2.length = BUF_SIZE) :
    MInv ⟨(emit_line { s with _eof := true }
      ({ s with _eof := true } : RState)._end).1, none⟩ := by
  by_cases hpos : s._pos = s._end
  · rw [emit_line_eofSig ({ s with _eof := true }) _ rfl hpos]
    have hcl : (closeFn { { s with _eof := true } with _reading := false }).1 =
        { s with _eof := true, _reading := false, _buffer := none } := by
      simp [closeFn, hb]
    rw [hcl]
    exact minv_not_reading _ rfl hend (by show s._pos ≤ s._end + 1; omega)
      (fun hf => by simp at hf) (fun b2 hb2 => by simp at hb2)
  · have hgen := emit_line_line { s with _eof := true } bu (s._end - s._pos) hb
      (by show s._pos ≤ s._end; omega)
      (by show s._end ≤ bu.length; rw [hbuf bu hb]; exact hend)
      (by show s._end - s._pos ≤ s._end - s._pos; omega)
      (fun hand => absurd hand.2 (by omega))
    have hco : ({ s with _eof := true } : RState)._pos + (s._end - s._pos) =
        ({ s with _eof := true } : RState)._end := by
      show s._pos + (s._end - s._pos) = s._end
      omega
    rw [hco] at hgen
    rw [hgen]
    exact minv_not_reading _ rfl hend
      (by show s._end + 1 ≤ s._end + 1; omega)
      (fun hf => by simp at hf)
      (fun b2 hb2 => hbuf b2 hb2)

theorem writeAt_fields (file : List Nat) (s : RState) (p : PendingRead) (n : Nat) :
    (writeAt file s p n)._end = s._end ∧ (writeAt file s p n)._pos = s._pos ∧
    (writeAt file s p n)._eof = s._eof ∧ (writeAt file s p n)._reading = s._reading ∧
    (writeAt file s p n)._readPointer = s._readPointer := by
  rcases hs : s._buffer with _ | bu <;> simp [writeAt, hs]

theorem writeAt_buffer_some (file : List Nat) (s : RState) (p : PendingRead) (n : Nat)
    (bu : List Nat) (hb : s._buffer = some bu) :
    (writeAt file s p n)._buffer =
      some (bu.take p.bufOff ++ (file.drop p.fpos).take n ++ bu.drop (p.bufOff + n)) := by
  simp [writeAt, hb]

theorem writeAt_buf_len (file : List Nat) (s : RState) (p : PendingRead) (n : Nat)
    (bu : List Nat) (hb : s._buffer = some bu) (hBUF : bu.length = BUF_SIZE)
    (hoff : p.bufOff = s._end) (hle : s._end + n ≤ BUF_SIZE)
    (hn2 : n ≤ file.length - p.fpos) :
    ∀ b2, (writeAt file s p n)._buffer = some b2 → b2.length = BUF_SIZE := by
  intro b2 hb2
  rw [writeAt_buffer_some file s p n bu hb] at hb2
  injection hb2 with h
  subst h
  simp only [List.length_append, List.length_take, List.length_drop, hBUF, hoff]
  omega

theorem minv_step (file : List Nat) (m : MState) (e : Ev) (h : MInv m) :
    MInv (stepEv file m e).1 := by
  obtain ⟨h1, h2, h3, h4, h5, h6, h7, h8⟩ := h
  cases e with
  | next =>
    by_cases hr : m.rd._reading = true
    · have hstep : (stepEv file m Ev.next).1 = ⟨(closeFn m.rd).1, m.pending⟩ := by
        simp [stepEv, hr]
      rw [hstep]
      obtain ⟨bu, hb⟩ : ∃ bu, m.rd._buffer = some bu := by
        have hne := h5 hr
        cases hbb : m.rd._buffer with
        | none => exact absurd hbb hne
        | some bu => exact ⟨bu, rfl⟩
      have hcl : (closeFn m.rd).1 = { m.rd with _buffer := none, _reading := false } := by
        simp [closeFn, hb]
      rw [hcl]
      exact minv_not_reading _ rfl h1 (by show m.rd._pos ≤ m.rd._end + 1; omega)
        (fun hf => h3 hf) (fun b2 hb2 => by simp at hb2)
    · have hrf : m.rd._reading = false := by simpa using hr
      by_cases he : m.rd._eof = true
      · have hstep : (stepEv file m Ev.next).1 = ⟨(closeFn m.rd).1, m.pending⟩ := by
          simp [stepEv, hrf, he]
        rw [hstep]
        by_cases hb : m.rd._buffer = none
        · have hcl : (closeFn m.rd).1 = m.rd := by simp [closeFn, hb]
          rw [hcl]
          exact minv_not_reading _ hrf h1 h2 h3 h6
        · have hcl : (closeFn m.rd).1 =
              { m.rd with _buffer := none, _reading := false } := by
            simp [closeFn, hb]
          rw [hcl]
          exact minv_not_reading _ rfl h1 (by show m.rd._pos ≤ m.rd._end + 1; omega)
            (fun hf => h3 hf) (fun b2 hb2 => by simp at hb2)
      · have hef : m.rd._eof = false := by simpa using he
        by_cases hb : m.rd._buffer = none
        · have hstep : (stepEv file m Ev.next).1 = m := by
            simp [stepEv, hrf, hef, hb]
          rw [hstep]
          exact ⟨h1, h2, h3, h4, h5, h6, h7, h8⟩
        · have hstep : (stepEv file m Ev.next).1 =
              (loopOnce ⟨{ m.rd with _reading := true }, m.pending⟩).1 := by
            simp [stepEv, hrf, hef, hb]
          rw [hstep]
          exact loopOnce_minv _ h1 (h3 hef) hef (fun b2 hb2 => h6 b2 hb2) hb
  | close =>
    by_cases hb : m.rd._buffer = none
    · have hstep : (stepEv file m Ev.close).1 = ⟨m.rd, m.pending⟩ := by
        simp [stepEv, closeFn, hb]
      rw [hstep]
      have hrf : m.rd._reading = false := by
        by_contra hcon
        have hcon2 : m.rd._reading = true := by simpa using hcon
        exact (h5 hcon2) hb
      exact minv_not_reading _ hrf h1 h2 h3 h6
    · have hstep : (stepEv file m Ev.close).1 =
          ⟨{ m.rd with _buffer := none, _reading := false }, m.pending⟩ := by
        simp [stepEv, closeFn, hb]
      rw [hstep]
      exact minv_not_reading _ rfl h1 (by show m.rd._pos ≤ m.rd._end + 1; omega)
        (fun hf => h3 hf) (fun b2 hb2 => by simp at hb2)
  | resolveOk =>
    cases hp : m.pending with
    | none =>
      have hstep : (stepEv file m Ev.resolveOk).1 = m := by
        simp [stepEv, hp]
      rw [hstep]
      exact ⟨h1, h2, h3, h4, h5, h6, h7, h8⟩
    | some p =>
      by_cases hr : m.rd._reading = true
      · obtain ⟨hoff, hlen, hfp⟩ := h7 hr p hp
        have hef := h4 hr
        obtain ⟨bu, hb⟩ : ∃ bu, m.rd._buffer = some bu := by
          have hne := h5 hr
          cases hbb : m.rd._buffer with
          | none => exact absurd hbb hne
          | some bu => exact ⟨bu, rfl⟩
        have hBUF := h6 bu hb
        by_cases hn : min p.len (file.length - p.fpos) = 0
        · have hstep : (stepEv file m Ev.resolveOk).1 =
              ⟨(emit_line { m.rd with _eof := true }
                ({ m.rd with _eof := true } : RState)._end).1, none⟩ := by
            simp [stepEv, hp, hr, hn]
          rw [hstep]
          exact emit_flush_minv m.rd bu hb h1 (h3 hef) h6
        · have hstep : (stepEv file m Ev.resolveOk).1 =
              (loopOnce ⟨{ writeAt file m.rd p (min p.len (file.length - p.fpos)) with
                _end := m.rd._end + min p.len (file.length - p.fpos),
                _readPointer := m.rd._readPointer + min p.len (file.length - p.fpos) },
                none⟩).1 := by
            simp [stepEv, hp, hr, hn]
          rw [hstep]
          obtain ⟨hw_end, hw_pos, hw_eof, hw_reading, hw_rp⟩ :=
            writeAt_fields file m.rd p (min p.len (file.length - p.fpos))
          have hnle : m.rd._end + min p.len (file.length - p.fpos) ≤ BUF_SIZE := by
            have hminle := Nat.min_le_left p.len (file.length - p.fpos)
            omega
          have hnle2 : min p.len (file.length - p.fpos) ≤ file.length - p.fpos :=
            Nat.min_le_right _ _
          apply loopOnce_minv
          · show m.rd._end + min p.len (file.length - p.fpos) ≤ BUF_SIZE
            omega
          · show (writeAt file m.rd p (min p.len (file.length - p.fpos)))._pos ≤
              m.rd._end + min p.len (file.length - p.fpos)
            rw [hw_pos]
            have := h3 hef
            omega
          · show (writeAt file m.rd p (min p.len (file.length - p.fpos)))._eof = false
            rw [hw_eof]
            exact hef
          · exact fun b2 hb2 =>
              writeAt_buf_len file m.rd p (min p.len (file.length - p.fpos)) bu hb hBUF
                hoff hnle hnle2 b2 hb2
          · show ¬(writeAt file m.rd p (min p.len (file.length - p.fpos)))._buffer = none
            rw [writeAt_buffer_some file m.rd p (min p.len (file.length - p.fpos)) bu hb]
            simp
      · have hrf : m.rd._reading = false := by simpa using hr
        have hstep : (stepEv file m Ev.resolveOk).1 = ⟨m.rd, none⟩ := by
          simp [stepEv, hp, hrf]
        rw [hstep]
        exact minv_not_reading _ hrf h1 h2 h3 h6
  | resolveErr =>
    cases hp : m.pending with
    | none =>
      have hstep : (stepEv file m Ev.resolveErr).1 = m := by
        simp [stepEv, hp]
      rw [hstep]
      exact ⟨h1, h2, h3, h4, h5, h6, h7, h8⟩
    | some p =>
      have hstep : (stepEv file m Ev.resolveErr).1 = ⟨(closeFn m.rd).1, none⟩ := by
        simp [stepEv, hp]
      rw [hstep]
      by_cases hb : m.rd._buffer = none
      · have hcl : (closeFn m.rd).1 = m.rd := by simp [closeFn, hb]
        rw [hcl]
        have hrf : m.rd._reading = false := by
          by_contra hcon
          have hcon2 : m.rd._reading = true := by simpa using hcon
          exact (h5 hcon2) hb
        exact minv_not_reading _ hrf h1 h2 h3 h6
      · have hcl : (closeFn m.rd).1 =
            { m.rd with _buffer := none, _reading := false } := by
          simp [closeFn, hb]
        rw [hcl]
        exact minv_not_reading _ rfl h1 (by show m.rd._pos ≤ m.rd._end + 1; omega)
          (fun hf => h3 hf) (fun b2 hb2 => by simp at hb2)

theorem reachable_minv (file : List Nat) (m : MState) (h : Reachable file m) : MInv m := by
  induction h with
  | init =>
    refine ⟨?_, ?_, ?_, ?_, ?_, ?_, ?_, ?_⟩
    · show (0 : Nat) ≤ BUF_SIZE
      omega
    · show (0 : Nat) ≤ 0 + 1
      omega
    · intro _
      exact Nat.le_refl 0
    · intro hcon
      simp [initM, initReader] at hcon
    · intro hcon
      simp [initM, initReader] at hcon
    · intro bu hbu
      have : some (List.replicate BUF_SIZE 0) = some bu := hbu
      injection this with hh
      rw [← hh]
      simp
    · intro hcon
      simp [initM, initReader] at hcon
    · intro hcon
      simp [initM, initReader] at hcon
  | step m e _ ih => exact minv_step file m e ih

/-! ## C5: the window-index invariant -/

/-- **C5** (amended): in every reachable state, `windowEnd ≤ BUF_SIZE` and
`windowStart ≤ windowEnd + 1`, and as long as end-of-file has not been
flagged also `windowStart ≤ windowEnd`.  (After the end-of-file flush of an
unterminated final line, `_pos = _end + 1`.) -/
theorem window_indices_invariant (file : List Nat) (m : MState)
    (h : Reachable file m) :
    m.rd._end ≤ BUF_SIZE ∧ m.rd._pos ≤ m.rd._end + 1 ∧
      (m.rd._eof = false → m.rd._pos ≤ m.rd._end) := by
  obtain ⟨h1, h2, h3, _, _, _, _, _⟩ := reachable_minv file m h
  exact ⟨h1, h2, h3⟩

theorem window_indices_invariant_witness :
    initM.rd._end ≤ BUF_SIZE ∧ initM.rd._pos ≤ initM.rd._end + 1 ∧
      (initM.rd._eof = false → initM.rd._pos ≤ initM.rd._end) :=
  window_indices_invariant [] initM Reachable.init

/-- The machine state reached on the file `"abc"` by one `next()` call and
the resolutions of its two disk reads: the trailing unterminated line has
been flushed. -/
def cexTrace : MState :=
  (stepEv [97, 98, 99]
    ((stepEv [97, 98, 99]
      ((stepEv [97, 98, 99] initM Ev.next).1) Ev.resolveOk).1) Ev.resolveOk).1

/-- **C5** (counterexample): the claimed invariant `_pos ≤ _end` is
violated in a reachable state: after the end-of-file flush of the
unterminated final line `"abc"`, the reader has `_pos = 4 > _end = 3`
(the source comments acknowledge this state). -/
theorem window_invariant_counterexample :
    Reachable [97, 98, 99] cexTrace ∧ cexTrace.rd._pos = 4 ∧ cexTrace.rd._end = 3 ∧
      ¬cexTrace.rd._pos ≤ cexTrace.rd._end := by
  refine ⟨?_, by decide, by decide, by decide⟩
  exact Reachable.step _ Ev.resolveOk
    (Reachable.step _ Ev.resolveOk (Reachable.step _ Ev.next Reachable.init))

/-! ## C7: the reentrancy guard -/

/-- A dead reader: buffer released, no end-of-file flag, no fetch marked
in progress.  This is the state after a protocol violation. -/
def ClosedState (m : MState) : Prop :=
  m.rd._buffer = none ∧ m.rd._eof = false ∧ m.rd._reading = false

theorem closed_step (file : List Nat) (m : MState) (e : Ev) (h : ClosedState m) :
    ClosedState (stepEv file m e).1 := by
  obtain ⟨hb, he, hr⟩ := h
  cases e with
  | next =>
    have hstep : (stepEv file m Ev.next).1 = m := by
      simp [stepEv, hr, he, hb]
    rw [hstep]
    exact ⟨hb, he, hr⟩
  | close =>
    have hstep : (stepEv file m Ev.close).1 = ⟨m.rd, m.pending⟩ := by
      simp [stepEv, closeFn, hb]
    rw [hstep]
    exact ⟨hb, he, hr⟩
  | resolveOk =>
    cases hp : m.pending with
    | none =>
      have hstep : (stepEv file m Ev.resolveOk).1 = m := by simp [stepEv, hp]
      rw [hstep]
      exact ⟨hb, he, hr⟩
    | some p =>
      have hstep : (stepEv file m Ev.resolveOk).1 = ⟨m.rd, none⟩ := by
        simp [stepEv, hp, hr]
      rw [hstep]
      exact ⟨hb, he, hr⟩
  | resolveErr =>
    cases hp : m.pending with
    | none =>
      have hstep : (stepEv file m Ev.resolveErr).1 = m := by simp [stepEv, hp]
      rw [hstep]
      exact ⟨hb, he, hr⟩
    | some p =>
      have hstep : (stepEv file m Ev.resolveErr).1 = ⟨(closeFn m.rd).1, none⟩ := by
        simp [stepEv, hp]
      have hcl : (closeFn m.rd).1 = m.rd := by simp [closeFn, hb]
      rw [hstep, hcl]
      exact ⟨hb, he, hr⟩

theorem closed_steps (file : List Nat) (m m2 : MState) (hs : Steps file m m2)
    (h : ClosedState m) : ClosedState m2 := by
  induction hs with
  | refl => exact h
  | tail m3 e hs2 ih => exact closed_step file m3 e ih

theorem next_on_closed (file : List Nat) (m : MState) (h : ClosedState m) :
    stepEv file m Ev.next = (m, some (Output.error ErrKind.closed)) := by
  obtain ⟨hb, he, hr⟩ := h
  simp [stepEv, hr, he, hb]

/-- **C7**: calling `next()` while a fetch is outstanding signals the
protocol-violation error ("operation already in course") and closes the
reader, and every `next()` issued on any state subsequently reachable from
that reader yields the closed-reader error rather than a line or an
end-of-file signal. -/
theorem reentrancy_guard (file : List Nat) (m : MState) (h : Reachable file m)
    (hr : m.rd._reading = true) :
    (stepEv file m Ev.next).2 = some (Output.error ErrKind.inProgress) ∧
    (stepEv file m Ev.next).1.rd._buffer = none ∧
    ∀ m2, Steps file (stepEv file m Ev.next).1 m2 →
      (stepEv file m2 Ev.next).2 = some (Output.error ErrKind.closed) := by
  have hminv := reachable_minv file m h
  have heof := hminv.eof_of_reading hr
  obtain ⟨bu, hb⟩ : ∃ bu, m.rd._buffer = some bu := by
    have hne := hminv.buf_of_reading hr
    cases hbb : m.rd._buffer with
    | none => exact absurd hbb hne
    | some bu => exact ⟨bu, rfl⟩
  have hstep : stepEv file m Ev.next =
      (⟨(closeFn m.rd).1, m.pending⟩, some (Output.error ErrKind.inProgress)) := by
    simp [stepEv, hr]
  have hcl : (closeFn m.rd).1 = { m.rd with _buffer := none, _reading := false } := by
    simp [closeFn, hb]
  have hclosed : ClosedState (stepEv file m Ev.next).1 := by
    rw [hstep]
    exact ⟨by rw [hcl], by rw [hcl]; exact heof, by rw [hcl]⟩
  refine ⟨by rw [hstep], hclosed.1, ?_⟩
  intro m2 hsteps
  have h2 := closed_steps file _ m2 hsteps hclosed
  rw [next_on_closed file m2 h2]

/-- The state of a fresh reader on the file `"a"` after one `next()` call:
a disk read is outstanding (`_reading = true`). -/
def c7w : MState := (stepEv [97] initM Ev.next).1

theorem reentrancy_guard_witness :
    c7w.rd._reading = true ∧
    (stepEv [97] c7w Ev.next).2 = some (Output.error ErrKind.inProgress) ∧
    (stepEv [97] c7w Ev.next).1.rd._buffer = none ∧
    (stepEv [97] (stepEv [97] c7w Ev.next).1 Ev.next).2 =
      some (Output.error ErrKind.closed) := by
  have h := reentrancy_guard [97] c7w (Reachable.step _ Ev.next Reachable.init)
    (by decide)
  exact ⟨by decide, h.1, h.2.1, h.2.2 _ (Steps.refl _)⟩

/-! ## C6: stale read resolutions -/

/-- **C6** (amended): when the reader has been closed or superseded while a
disk read is outstanding (`_reading = false` at resolution), a resolution
with data or with zero bytes is silently dropped — no emission, reader
state unchanged — but a resolution with an ERROR is not dropped: the
`if (err)` branch of the callback runs before the `_reading` guard, so the
error is emitted and the reader is (re)closed. -/
theorem stale_read_resolution (file : List Nat) (m : MState) (p : PendingRead)
    (hp : m.pending = some p) (hr : m.rd._reading = false) :
    stepEv file m Ev.resolveOk = (⟨m.rd, none⟩, none) ∧
    stepEv file m Ev.resolveErr =
      (⟨(closeFn m.rd).1, none⟩, some (Output.error ErrKind.ioErr)) := by
  constructor
  · simp [stepEv, hp, hr]
  · simp [stepEv, hp]

/-- The state of a fresh reader on the file `"a"` after `next()` (which
issues a disk read) and then `close()`: the reader is closed while the
read is still outstanding. -/
def c6state : MState := (stepEv [97] ((stepEv [97] initM Ev.next).1) Ev.close).1

theorem stale_read_resolution_witness :
    stepEv [97] c6state Ev.resolveOk = (⟨c6state.rd, none⟩, none) ∧
    stepEv [97] c6state Ev.resolveErr =
      (⟨(closeFn c6state.rd).1, none⟩, some (Output.error ErrKind.ioErr)) :=
  stale_read_resolution [97] c6state ⟨0, BUF_SIZE - 0, 0⟩ (by decide) (by decide)

/-- **C6** (counterexample): a read that resolves with an error after the
reader was closed is NOT silently dropped: the error is emitted.  Concrete
run: on file `"a"`, call `next()` (a read is issued), call `close()`, then
let the read resolve with an error. -/
theorem stale_error_emitted_counterexample :
    c6state.rd._buffer = none ∧ c6state.rd._reading = false ∧
      ¬c6state.pending = none ∧
      (stepEv [97] c6state Ev.resolveErr).2 = some (Output.error ErrKind.ioErr) := by
  refine ⟨by decide, by decide, by decide, by decide⟩

/-! ## C9: idempotent close -/

/-- **C9**: `close()` is idempotent: a second `close()` leaves the state of
the first `close()` unchanged and does not release the handle again (the
handle is released by a `close()` exactly when the reader is still open),
and the `close` event never produces an emission. -/
theorem close_idempotent :
    (∀ s : RState,
      (closeFn (closeFn s).1).1 = (closeFn s).1 ∧
      (closeFn (closeFn s).1).2 = false ∧
      ((closeFn s).2 = true ↔ ¬s._buffer = none)) ∧
    (∀ (file : List Nat) (m : MState),
      (stepEv file (stepEv file m Ev.close).1 Ev.close).1 = (stepEv file m Ev.close).1 ∧
      (stepEv file m Ev.close).2 = none) := by
  constructor
  · intro s
    by_cases hb : s._buffer = none
    · simp [closeFn, hb]
    · simp [closeFn, hb]
  · intro file m
    constructor
    · show (stepEv file ⟨(closeFn m.rd).1, m.pending⟩ Ev.close).1 = _
      by_cases hb : m.rd._buffer = none
      · simp [stepEv, closeFn, hb]
      · simp [stepEv, closeFn, hb]
    · rfl

/-! ## C3: the rewrite driver and write errors -/

/-- The driver's `fs.write` completion callback in `rewriteFiles`: advance
the write pointer only when the write succeeded (`if (!err) writePointer +=
written`), then call `fileReader.next()` UNCONDITIONALLY ("carry on
stepping through file").  Returns the new write pointer and whether the
next line is requested. -/
def onWriteDone (err : Bool) (written wp : Nat) : Nat × Bool :=
  (if err = false then wp + written else wp, true)

/-- The driver loop for one file: pull a line, transform it with
`processLine` (bytes decoded to characters), write it back at the write
pointer — the result of each write (error flag) supplied by `oracle`, a
missing entry meaning success — and continue as `onWriteDone` directs;
stop at an end-of-file or error delivery.  Returns the payloads of the
delivered lines and the final write pointer. -/
def driveWritesF (file : List Nat) : Nat → List Bool → RState → Nat →
    List (List Nat) × Nat
  | 0, _, _, wp => ([], wp)
  | fuel + 1, oracle, s, wp =>
    match nextSync file s with
    | (s2, Output.line l) =>
      let written := (processLine (l.map Char.ofNat)).length
      let r := onWriteDone (oracle.headD false) written wp
      let rest := driveWritesF file fuel oracle.tail s2 r.1
      (l :: rest.1, rest.2)
    | (_, _) => ([], wp)

/-- **C3** (amended): a disk write error is NOT fatal to the file: the
write cursor stays at its last successful position (`onWriteDone` with the
error flag leaves `wp` unchanged) but the driver still requests the next
line, and the sequence of lines the driver pulls and processes is entirely
independent of which writes fail. -/
theorem write_error_not_fatal :
    (∀ written wp : Nat, onWriteDone true written wp = (wp, true)) ∧
    (∀ (file : List Nat) (fuel : Nat) (o1 o2 : List Bool) (s : RState) (wp1 wp2 : Nat),
      (driveWritesF file fuel o1 s wp1).1 = (driveWritesF file fuel o2 s wp2).1) := by
  constructor
  · intro written wp
    simp [onWriteDone]
  · intro file fuel
    induction fuel with
    | zero =>
      intro o1 o2 s wp1 wp2
      rfl
    | succ fuel ih =>
      intro o1 o2 s wp1 wp2
      cases hns : nextSync file s with
      | mk s2 out =>
        cases out with
        | line l =>
          simp only [driveWritesF, hns]
          rw [ih o1.tail o2.tail s2]
        | eofSig => simp only [driveWritesF, hns]
        | error e => simp only [driveWritesF, hns]
        | stuck => simp only [driveWritesF, hns]

/-- **C3** (counterexample): a write error does not stop processing of the
file.  On the file `"a\nb\n"` with the first write failing, the driver
still pulls and processes the second line `"b"` (two lines in total), and
the write cursor ends at 2 — the second line's write succeeded at the
position left by the failed first write. -/
theorem write_error_not_fatal_counterexample :
    (driveWritesF [97, 10, 98, 10] 6 [true] initReader 0).1 = [[97], [98]] ∧
    (driveWritesF [97, 10, 98, 10] 6 [true] initReader 0).2 = 2 ∧
    1 < (driveWritesF [97, 10, 98, 10] 6 [true] initReader 0).1.length := by
  refine ⟨by decide, by decide, by decide⟩
